import Mathlib

/-!
# Verification of `combine-p-values-discrete` (core)

Shallow embedding of the core of the `combine_pvalues_discrete` package:
the null-distribution model (`pdist.py`), the combinable-test-result
constructor and the Monte Carlo combination engine (`ctr.py`), and the
calibrated p-value estimator (`tools.py`).

Modelling conventions:
* Python floats are embedded as exact rationals (`ℚ`); float arithmetic on
  the values involved is modelled exactly.  IEEE NaN has no counterpart in
  `ℚ`, so NaN-specific checks are outside the embedding (noted per claim).
* The float infinities that statistics such as Pearson's can produce (from
  `p/q` at `q = 0`) are modelled with `WithTop ℚ` (`⊤` = `+inf`).
* The external transcendental library functions `numpy.log` and
  `scipy.special.erfinv` are not part of this repository; they enter the
  embedding as parameters `L E : ℚ → ℚ` (arbitrary monotone models of the
  float implementations).  `numpy.sqrt` is modelled by `Real.sqrt`.
* NumPy's random generator is external state; sampling results enter
  `combine` as explicit arguments (`nullP`, `nullQ`), so "same RNG state"
  is expressed as "same sampled data", and the shuffled visitation order
  of `PDist.sample` is an explicit permutation argument.
-/

namespace CombinePValuesDiscrete

/-- Relative tolerance `1e-10` used both by `PDist.__init__` (pdist.py:20-22)
and by `CTR.__init__` (ctr.py:45). -/
def tol10 : ℚ := 1 / 10 ^ 10

/-! ## `pdist.py`: the null-distribution model `PDist` -/

/-- `PDist` stores the sorted support `ps` of the p-value distribution
(pdist.py:16-25); the empty support denotes the continuous uniform
distribution. -/
structure PDist where
  ps : List ℚ
deriving DecidableEq, Repr, Inhabited

/-- `np.diff(ps, prepend=prev)`: successive differences, the first taken
against `prev` (pdist.py:29 uses `prev = 0`). -/
def diffs (prev : ℚ) : List ℚ → List ℚ
  | [] => []
  | x :: rest => (x - prev) :: diffs x rest

/-- `PDist.probs` (pdist.py:27-29): `np.diff(self.ps, prepend=0)`. -/
def PDist.probs (d : PDist) : List ℚ := diffs 0 d.ps

/-- `PDist.continuous` (pdist.py:31-33): the support is empty. -/
def PDist.continuous (d : PDist) : Prop := d.ps = []

instance (d : PDist) : Decidable d.continuous := by
  unfold PDist.continuous; infer_instance

/-- `PDist.__init__` (pdist.py:16-25).  The input is sorted; an empty input
yields the continuous distribution; otherwise the constructor checks
`0 < ps[0]` and `|ps[-1] - 1| < 1e-10`, then checks
`ps[-1] >= 1 + 1e-10 and len(ps) > 1 and ps[-2] >= 1`, and finally snaps
the last element to exactly 1. -/
def PDist.mk' (ps : List ℚ) : Except String PDist :=
  let s := ps.insertionSort (· ≤ ·)
  if s = [] then .ok ⟨[]⟩
  else if 0 < s.headD 0 ∧ |s.getLastD 0 - 1| < tol10 then
    if 1 + tol10 ≤ s.getLastD 0 ∧ 1 < s.length ∧ 1 ≤ s.dropLast.getLastD 0 then
      .error "Two p values slightly larger than or equal to 1."
    else
      .ok ⟨s.dropLast ++ [1]⟩
  else
    .error "p values must be between 0 and 1, with the largest being 1"

/-! Basic facts about `diffs`. -/

theorem getLastD_cons_indep (y : α) (t : List α) (a b : α) :
    (y :: t).getLastD a = (y :: t).getLastD b := by
  cases t with
  | nil => rfl
  | cons z t => simp only [List.getLastD_cons]

theorem diffs_sum (prev : ℚ) (l : List ℚ) :
    (diffs prev l).sum = l.getLastD prev - prev := by
  induction l generalizing prev with
  | nil => simp [diffs]
  | cons x rest ih =>
    simp only [diffs, List.sum_cons, ih]
    cases rest with
    | nil => simp
    | cons y t =>
      simp only [List.getLastD_cons]
      ring

theorem diffs_length (prev : ℚ) (l : List ℚ) :
    (diffs prev l).length = l.length := by
  induction l generalizing prev with
  | nil => rfl
  | cons x rest ih => simp [diffs, ih]

/-! Characterization of `PDist.mk'`. -/

/-- Successful construction of a discrete `PDist`: what the constructor
guarantees about its input and output. -/
theorem mk'_ok_elim {ps : List ℚ} {d : PDist} (hok : PDist.mk' ps = .ok d) :
    (ps = [] ∧ d = ⟨[]⟩) ∨
      (ps.insertionSort (· ≤ ·) ≠ [] ∧
        0 < (ps.insertionSort (· ≤ ·)).headD 0 ∧
        |(ps.insertionSort (· ≤ ·)).getLastD 0 - 1| < tol10 ∧
        d = ⟨(ps.insertionSort (· ≤ ·)).dropLast ++ [1]⟩) := by
  simp only [PDist.mk'] at hok
  split at hok
  · rename_i hs
    left
    refine ⟨?_, by injection hok with h; exact h.symm⟩
    have := List.perm_insertionSort (· ≤ ·) ps
    rw [hs] at this
    exact List.Perm.eq_nil this.symm
  · rename_i hs
    split at hok
    · rename_i hcond
      split at hok
      · exact absurd hok (by simp)
      · right
        exact ⟨hs, hcond.1, hcond.2, by injection hok with h; exact h.symm⟩
    · exact absurd hok (by simp)

/-- The "two p values slightly larger than or equal to 1" branch of
`PDist.__init__` (pdist.py:22-23) is unreachable: the check at pdist.py:20
already guarantees `ps[-1] < 1 + 1e-10`, contradicting `ps[-1] >= 1 + 1e-10`. -/
theorem mk'_two_values_branch_unreachable (ps : List ℚ) :
    PDist.mk' ps ≠ .error "Two p values slightly larger than or equal to 1." := by
  simp only [PDist.mk']
  split
  · simp
  · split
    · rename_i hcond
      split
      · rename_i htwo
        have h1 : (ps.insertionSort (· ≤ ·)).getLastD 0 - 1 < tol10 := (abs_lt.mp hcond.2).2
        have h2 := htwo.1
        intro
        linarith
      · simp
    · rename_i hcond
      intro h
      injection h with h
      have : "p values must be between 0 and 1, with the largest being 1" ≠
          "Two p values slightly larger than or equal to 1." := by decide
      exact this h

/-- The invariant of a successfully constructed discrete `PDist`, under the
extra hypothesis that at most the largest input value exceeds 1 (without it
the constructor erroneously accepts inputs with two values above 1,
see `C10_dead_error_branch`): the stored support is sorted, lies in `(0,1]`,
ends in exactly 1, and its masses `probs = diffs 0 ps` sum to exactly 1. -/
theorem pdist_invariant {ps : List ℚ} {d : PDist} (hok : PDist.mk' ps = .ok d)
    (hne : d.ps ≠ [])
    (hone : ∀ x ∈ (ps.insertionSort (· ≤ ·)).dropLast, x ≤ 1) :
    d.ps.Sorted (· ≤ ·) ∧ (∀ x ∈ d.ps, 0 < x ∧ x ≤ 1) ∧
      d.ps.getLastD 0 = 1 ∧ d.probs = diffs 0 d.ps ∧ d.probs.sum = 1 := by
  rcases mk'_ok_elim hok with ⟨-, hd⟩ | ⟨hs, hpos, -, hd⟩
  · exact absurd (by rw [hd]) hne
  set s := ps.insertionSort (· ≤ ·) with hsdef
  have hsorted : s.Sorted (· ≤ ·) := List.sorted_insertionSort (· ≤ ·) ps
  have hsub : s.dropLast ⊆ s := (List.dropLast_prefix s).subset
  have hmin : ∀ x ∈ s, s.headD 0 ≤ x := by
    obtain ⟨h, t, hst⟩ := List.exists_cons_of_ne_nil hs
    rw [hst]
    intro x hx
    rcases List.mem_cons.mp hx with hx | hx
    · exact le_of_eq (by rw [hx]; rfl)
    · have := hsorted
      rw [hst] at this
      exact (List.sorted_cons.mp this).1 x hx
  have hps : d.ps = s.dropLast ++ [1] := by rw [hd]
  refine ⟨?_, ?_, ?_, rfl, ?_⟩
  · rw [hps]
    refine (List.pairwise_append).mpr
      ⟨hsorted.sublist (List.dropLast_sublist s), ?_, ?_⟩
    · simp
    · intro x hx y hy
      rw [List.mem_singleton.mp hy]
      exact hone x hx
  · intro x hx
    rw [hps] at hx
    rcases List.mem_append.mp hx with hx | hx
    · exact ⟨lt_of_lt_of_le hpos (hmin x (hsub hx)), hone x hx⟩
    · rw [List.mem_singleton.mp hx]; exact ⟨one_pos, le_refl 1⟩
  · rw [hps, List.getLastD_concat]
  · have hlast : d.ps.getLastD 0 = 1 := by rw [hps, List.getLastD_concat]
    show (diffs 0 d.ps).sum = 1
    rw [diffs_sum, hlast, sub_zero]

/-- **C1** (amended): for every successfully constructed discrete `PDist`
whose input support contains at most one value exceeding 1 (i.e. all values
except the largest are `≤ 1`), the stored support is sorted ascending with
all values in `(0,1]` and the largest exactly 1, the probability mass of the
i-th support value is `pᵢ - pᵢ₋₁` (with `p₀ = 0`, i.e. `probs = diffs 0 ps`),
and the masses sum exactly to 1.  (The unamended claim fails because the
constructor also accepts inputs with two values above 1, see
`C1_counterexample`.) -/
theorem C1_pdist_core_invariant {ps : List ℚ} {d : PDist}
    (hok : PDist.mk' ps = .ok d) (hne : d.ps ≠ [])
    (hone : ∀ x ∈ (ps.insertionSort (· ≤ ·)).dropLast, x ≤ 1) :
    d.ps.Sorted (· ≤ ·) ∧ (∀ x ∈ d.ps, 0 < x ∧ x ≤ 1) ∧
      d.ps.getLastD 0 = 1 ∧ d.probs = diffs 0 d.ps ∧ d.probs.sum = 1 :=
  pdist_invariant hok hne hone

/-- Witness for `C1_pdist_core_invariant` at the concrete support `[1/2, 1]`. -/
theorem C1_pdist_core_invariant_witness :
    (PDist.mk' [1/2, 1] = .ok ⟨[1/2, 1]⟩ ∧ ([1/2, 1] : List ℚ) ≠ [] ∧
      (∀ x ∈ (([1/2, 1] : List ℚ).insertionSort (· ≤ ·)).dropLast, x ≤ 1)) ∧
      (([1/2, 1] : List ℚ).Sorted (· ≤ ·) ∧
        (∀ x ∈ ([1/2, 1] : List ℚ), 0 < x ∧ x ≤ 1) ∧
        ([1/2, 1] : List ℚ).getLastD 0 = 1 ∧
        (PDist.probs ⟨[1/2, 1]⟩) = diffs 0 [1/2, 1] ∧
        (PDist.probs ⟨[1/2, 1]⟩).sum = 1) :=
  ⟨⟨by norm_num [PDist.mk', List.insertionSort, List.orderedInsert, tol10, abs_lt],
      by simp,
      by norm_num [List.insertionSort, List.orderedInsert]⟩,
    @C1_pdist_core_invariant [1/2, 1] ⟨[1/2, 1]⟩
      (by norm_num [PDist.mk', List.insertionSort, List.orderedInsert, tol10, abs_lt])
      (by simp)
      (by norm_num [List.insertionSort, List.orderedInsert])⟩

/-- **C1** counterexample: the input `[1 + 4e-11, 1 + 8e-11]` is accepted by
`PDist.__init__` (the "two values close to 1" check at pdist.py:22 being
unreachable), and the resulting stored support `[1 + 4e-11, 1]` is neither
sorted ascending nor contained in `(0,1]`, refuting the claim as stated. -/
theorem C1_counterexample :
    PDist.mk' [1 + 4/10^11, 1 + 8/10^11] = .ok ⟨[1 + 4/10^11, 1]⟩ ∧
      ¬ (([1 + 4/10^11, 1] : List ℚ).Sorted (· ≤ ·) ∧
          ∀ x ∈ ([1 + 4/10^11, 1] : List ℚ), 0 < x ∧ x ≤ 1) := by
  constructor
  · norm_num [PDist.mk', List.insertionSort, List.orderedInsert, tol10, abs_lt] <;>
      (intro h; simp at h)
  · intro h
    have hmem : (1 + 4/10^11 : ℚ) ∈ ([1 + 4/10^11, 1] : List ℚ) := by simp
    have h1 : (1 + 4/10^11 : ℚ) ≤ 1 := (h.2 (1 + 4/10^11) hmem).2
    norm_num at h1

/-- **C10**: the code never raises the "Two p values slightly larger than or
equal to 1." error (pdist.py:22-23 is dead code: its guard
`ps[-1] >= 1 + 1e-10` contradicts the bound `|ps[-1] - 1| < 1e-10`
established at pdist.py:20), so a support with two distinct values extremely
close to (or above) 1 is accepted rather than rejected; a support whose
single largest value is within `1e-10` of 1 is accepted with that value
snapped to exactly 1, as the claim states. -/
theorem C10_dead_error_branch :
    (∀ ps : List ℚ,
        PDist.mk' ps ≠ .error "Two p values slightly larger than or equal to 1.") ∧
      PDist.mk' [1 + 4/10^11, 1 + 8/10^11] = .ok ⟨[1 + 4/10^11, 1]⟩ ∧
      PDist.mk' [1/2, 1 - 1/10^11] = .ok ⟨[1/2, 1]⟩ :=
  ⟨mk'_two_values_branch_unreachable,
    by
      norm_num [PDist.mk', List.insertionSort, List.orderedInsert, tol10, abs_lt] <;>
        (intro h; simp at h),
    by
      norm_num [PDist.mk', List.insertionSort, List.orderedInsert, tol10, abs_lt] <;>
        (intro h; simp at h)⟩

/-! ## `tools.py`: the calibrated p-value estimator -/

/-- `counted_p` as it stands in src (tools.py:47-51): no `rtol`/`atol`
parameters, the count is `np.sum(orig_stat >= null_stats)` with no tolerance,
and the returned value is the bare number `(count+1)/(n+1)` — not a
`(pvalue, std)` pair.  (The repo's own tests, test_tools.py:84, and the call
site ctr.py:430 expect the keyword-accepting, pair-returning version.) -/
def counted_p (orig_stat : ℚ) (null_stats : List ℚ) : ℚ :=
  ((null_stats.countP (fun ns => decide (ns ≤ orig_stat)) : ℚ) + 1) /
    ((null_stats.length : ℚ) + 1)

/-- `std_counted_p` (tools.py:53-58): `sqrt(p*(1-p)/n)`. -/
noncomputable def std_counted_p (p : ℚ) (n : ℕ) : ℝ :=
  Real.sqrt ((p : ℝ) * (1 - (p : ℝ)) / (n : ℝ))

/-- Modelled from the spec: the `Combined_P_Value` pair type imported by
ctr.py:7 is missing from src/tools.py; per spec §3 ("CombinedPValue — output
value: a point estimate in (0,1] plus a standard-deviation estimate"). -/
structure Combined_P_Value where
  pvalue : ℚ
  std : ℝ

/-- `numpy.isclose(a, b, rtol, atol)` on extended values (`⊤` = `+inf`):
`|a-b| <= atol + rtol*|b|` for finite values; for non-finite values numpy
falls back to equality. -/
def isclose (rtol atol : ℚ) : WithTop ℚ → WithTop ℚ → Bool
  | some a, some b => decide (|a - b| ≤ atol + rtol * |b|)
  | a, b => decide (a = b)

/-- The tolerant "at least as extreme" count: `observed >= null_sample`, with
values within `rtol`/`atol` tolerance counted as ties in favour of the null. -/
def countExtreme (orig : WithTop ℚ) (nulls : List (WithTop ℚ)) (rtol atol : ℚ) : ℕ :=
  nulls.countP (fun ns => decide (ns ≤ orig) || isclose rtol atol orig ns)

/-- Modelled from the spec: the rtol/atol-accepting, pair-returning
`counted_p` that ctr.py:430 calls and test_tools.py unpacks is missing from
src/tools.py (which holds the older version `counted_p` above); per spec
§4.5: count the null samples at least as extreme as the observed statistic
up to `rtol`/`atol` tolerance (ties included), set
`pvalue = (count+1)/(n_samples+1)` and `std = sqrt(pvalue*(1-pvalue)/n_samples)`. -/
noncomputable def counted_p_spec (orig : WithTop ℚ) (nulls : List (WithTop ℚ))
    (rtol atol : ℚ) : Combined_P_Value :=
  let p : ℚ := ((countExtreme orig nulls rtol atol : ℚ) + 1) / ((nulls.length : ℚ) + 1)
  ⟨p, Real.sqrt ((p : ℝ) * (1 - (p : ℝ)) / (nulls.length : ℝ))⟩

theorem counted_p_spec_pvalue (orig : WithTop ℚ) (nulls : List (WithTop ℚ))
    (rtol atol : ℚ) :
    (counted_p_spec orig nulls rtol atol).pvalue =
      ((countExtreme orig nulls rtol atol : ℚ) + 1) / ((nulls.length : ℚ) + 1) := rfl

/-- **C2**: the claim describes the tolerance-counting, pair-returning
estimator (spec §4.5, test_tools.py:84, call site ctr.py:430), but the
`counted_p` in src counts only `orig >= null` with no tolerance and returns a
bare number.  At `observed = 0`, `null_stats = [1e-16]`, `rtol = 0`,
`atol = 1e-15`: the claimed behaviour counts the null sample as a tie within
tolerance (pvalue 1), while the src code does not count it and returns 1/2
(and cannot accept the rtol/atol keywords at all). -/
theorem C2_tolerance_divergence :
    counted_p 0 [1/10^16] = 1/2 ∧
      (counted_p_spec ((0 : ℚ) : WithTop ℚ) [((1/10^16 : ℚ) : WithTop ℚ)]
          0 (1/10^15)).pvalue = 1 := by
  constructor
  · have h : ¬ ((1/10^16 : ℚ) ≤ 0) := by norm_num
    simp [counted_p, List.countP_cons, h]
    norm_num
  · rw [counted_p_spec_pvalue]
    have hc : countExtreme ((0 : ℚ) : WithTop ℚ) [((1/10^16 : ℚ) : WithTop ℚ)]
        0 (1/10^15) = 1 := by
      simp [countExtreme, List.countP_cons, isclose]
      rw [abs_of_nonneg (by positivity)]
      norm_num
    rw [hc]
    norm_num

/-- **C3**: the numeric guarantees of the claim hold of the src `counted_p`
(never 0, at least `1/(n+1)`, at most 1) and `std_counted_p` is exactly
`sqrt(p*(1-p)/n)`; but src `counted_p` returns only the bare p-value, not the
claimed `(pvalue, std)` pair — at the repo's own test input
(test_tools.py:84) it returns the number 1/10, which has no `.pvalue`/std
component. -/
theorem C3_estimator_bounds :
    counted_p (1/2) [1, 2, 3, 4, 5, 6, 7, 8, 9] = 1/10 ∧
      (∀ (orig : ℚ) (nulls : List ℚ),
        0 < counted_p orig nulls ∧
          1 / (nulls.length + 1) ≤ counted_p orig nulls ∧
          counted_p orig nulls ≤ 1) ∧
      ∀ (p : ℚ) (n : ℕ),
        std_counted_p p n = Real.sqrt ((p : ℝ) * (1 - (p : ℝ)) / (n : ℝ)) := by
  refine ⟨?_, ?_, fun p n => rfl⟩
  · simp only [counted_p, List.countP_cons, List.countP_nil]
    norm_num
  · intro orig nulls
    have hlen : (0 : ℚ) < (nulls.length : ℚ) + 1 := by positivity
    have hcount : (nulls.countP (fun ns => decide (ns ≤ orig)) : ℚ) ≤ nulls.length := by
      exact_mod_cast List.countP_le_length _
    have hc0 : (0 : ℚ) ≤ (nulls.countP (fun ns => decide (ns ≤ orig)) : ℚ) := by
      positivity
    refine ⟨?_, ?_, ?_⟩
    · unfold counted_p
      positivity
    · unfold counted_p
      exact (div_le_div_right hlen).mpr (by linarith)
    · unfold counted_p
      exact (div_le_one hlen).mpr (by linarith)

/-! ## `ctr.py`: the combinable test result `CTR` -/

/-- Modelled from the spec: `PDist.complement` is absent from src/pdist.py
(only its caller ctr.py:52 is present); per spec §4.1: "for continuous,
returns 1−p; for discrete, returns the probability mass strictly above p". -/
def PDist.complement (d : PDist) (p : ℚ) : ℚ :=
  if d.ps = [] then 1 - p
  else (((d.ps.zip d.probs).filter (fun x => decide (p < x.1))).map Prod.snd).sum

/-- `all_ps[np.argmin(np.abs(all_ps - p))]` (ctr.py:43-44): the first support
value minimizing the absolute distance to `p`. -/
def closest (allPs : List ℚ) (p : ℚ) : ℚ :=
  match allPs with
  | [] => p
  | x :: rest => rest.foldl (fun b y => if |y - p| < |b - p| then y else b) x

/-- A combinable test result: observed `p`, derived complement `q`, and the
owned null distribution (ctr.py:50-52). -/
structure CTR where
  p : ℚ
  q : ℚ
  nulldist : PDist
deriving DecidableEq, Repr, Inhabited

/-- The tail of `CTR.__init__` (ctr.py:50-52): build the null distribution
from `all_ps` and derive `q` from its complement at `p`. -/
def CTR.finish (p : ℚ) (allPs : List ℚ) : Except String CTR :=
  (PDist.mk' allPs).map (fun d => ⟨p, d.complement p, d⟩)

/-- `CTR.__init__` (ctr.py:38-52).  The NaN check at ctr.py:40 has no
counterpart in `ℚ` (NaN is not representable).  Note the snap check at
ctr.py:45 is the *signed* quantity `(closest - p)/p > 1e-10`: only a closest
support value sufficiently far *above* `p` is rejected. -/
def CTR.init (p : ℚ) (allPs : List ℚ) : Except String CTR :=
  if p = 0 then .error "p value cannot be zero."
  else if allPs ≠ [] ∧ p ∉ allPs then
    if (closest allPs p - p) / p > tol10 then .error "p value must be in all_ps."
    else CTR.finish (closest allPs p) allPs
  else CTR.finish p allPs

/-- The acceptance condition of `PDist.__init__`: empty support, or positive
minimum and maximum within `1e-10` of 1. -/
def pdistAccepts (ps : List ℚ) : Prop :=
  ps = [] ∨ (0 < (ps.insertionSort (· ≤ ·)).headD 0 ∧
    |(ps.insertionSort (· ≤ ·)).getLastD 0 - 1| < tol10)

instance (ps : List ℚ) : Decidable (pdistAccepts ps) := by
  unfold pdistAccepts; infer_instance

theorem mk'_isOk_iff (ps : List ℚ) : (PDist.mk' ps).isOk = true ↔ pdistAccepts ps := by
  simp only [PDist.mk', pdistAccepts]
  split
  · rename_i hs
    simp only [Except.isOk, Except.toBool, true_iff]
    left
    have := List.perm_insertionSort (· ≤ ·) ps
    rw [hs] at this
    exact List.Perm.eq_nil this.symm
  · rename_i hs
    split
    · rename_i hcond
      split
      · rename_i htwo
        have h1 : (ps.insertionSort (· ≤ ·)).getLastD 0 - 1 < tol10 := (abs_lt.mp hcond.2).2
        have h2 := htwo.1
        exact absurd (by linarith : (1 : ℚ) + tol10 < 1 + tol10) (lt_irrefl _)
      · simp only [Except.isOk, Except.toBool, true_iff]
        exact Or.inr hcond
    · rename_i hcond
      simp only [Except.isOk, Except.toBool]
      constructor
      · intro h; exact absurd h (by simp)
      intro h
      exfalso
      rcases h with h | h
      · exact hs (by rw [h]; rfl)
      · exact hcond h

theorem finish_isOk (p : ℚ) (allPs : List ℚ) :
    (CTR.finish p allPs).isOk = (PDist.mk' allPs).isOk := by
  unfold CTR.finish
  cases PDist.mk' allPs <;> rfl

theorem finish_ok_elim {p : ℚ} {allPs : List ℚ} {c : CTR}
    (h : CTR.finish p allPs = .ok c) :
    ∃ d, PDist.mk' allPs = .ok d ∧ c = ⟨p, d.complement p, d⟩ := by
  unfold CTR.finish at h
  cases hmk : PDist.mk' allPs with
  | ok d =>
    rw [hmk] at h
    exact ⟨d, rfl, by injection h with h; exact h.symm⟩
  | error e =>
    rw [hmk] at h
    exact absurd h (by simp [Except.map])

/-- Concrete evaluation shared by the C6 artifacts: `CTR(0.5, [0.1, 1])`
does not raise; it silently snaps `p` to `0.1` (the support value closest to
`0.5`), because the signed check `(closest - p)/p > 1e-10` at ctr.py:45 never
rejects a closest value below `p`. -/
theorem ctr_init_snap_example :
    CTR.init (1/2) [1/10, 1] = .ok ⟨1/10, 9/10, ⟨[1/10, 1]⟩⟩ := by
  have hclosest : closest [1/10, 1] (1/2) = 1/10 := by
    have h1 : |(1 : ℚ) - 1/2| = 1/2 := by
      rw [abs_of_nonneg (by norm_num : (0:ℚ) ≤ 1 - 1/2)]
      norm_num
    have h2 : |(1/10 : ℚ) - 1/2| = 2/5 := by
      rw [abs_of_nonpos (by norm_num : (1/10 : ℚ) - 1/2 ≤ 0)]
      norm_num
    simp only [closest, List.foldl, h1, h2]
    rw [if_neg (by norm_num)]
  have hmk : PDist.mk' [1/10, 1] = .ok ⟨[1/10, 1]⟩ := by
    norm_num [PDist.mk', List.insertionSort, List.orderedInsert, tol10, abs_lt] <;>
      (intro h; simp at h)
  have hcompl : PDist.complement ⟨[1/10, 1]⟩ (1/10) = 9/10 := by
    norm_num [PDist.complement, PDist.probs, diffs, List.filter_cons,
      decide_eq_true_eq]
  simp only [CTR.init]
  rw [if_neg (by norm_num), if_pos, if_neg, CTR.finish, hclosest, hmk]
  · simp only [Except.map, hcompl]
  · rw [hclosest]
    norm_num [tol10]
  · refine ⟨by simp, ?_⟩
    simp only [List.mem_cons, List.mem_singleton]
    push_neg
    norm_num

/-- **C6** (amended): for every (non-NaN) `p` and support `all_ps`,
`CTR(p, all_ps)` raises exactly when `p = 0`, or the support is non-empty
with `p` not a member and the support value closest to `p` exceeding `p` by
more than `1e-10` relative tolerance (the *signed* check
`(closest - p)/p > 1e-10` of ctr.py:45), or the support itself fails the
`PDist` validation; whenever the support is non-empty and `p` is not a
member but construction succeeds, `p` is silently snapped to the closest
support value — in particular a `p` arbitrarily far *above* the closest
support value, or far below with `closest < p`, is snapped rather than
rejected, and a `p` outside `(0,1]` with empty support is accepted. -/
theorem C6_ctr_error_characterization :
    (∀ (p : ℚ) (allPs : List ℚ),
      (CTR.init p allPs).isOk = true ↔
        ¬(p = 0 ∨
          (allPs ≠ [] ∧ p ∉ allPs ∧ tol10 < (closest allPs p - p) / p) ∨
          ¬ pdistAccepts allPs)) ∧
    (∀ (p : ℚ) (allPs : List ℚ) (c : CTR),
      allPs ≠ [] → p ∉ allPs → CTR.init p allPs = .ok c →
        c.p = closest allPs p) := by
  constructor
  · intro p allPs
    unfold CTR.init
    split
    · rename_i hp0
      simp [Except.isOk, Except.toBool, hp0]
    · rename_i hp0
      split
      · rename_i hmem
        split
        · rename_i hfar
          simp only [Except.isOk, Except.toBool]
          constructor
          · intro h; exact absurd h (by simp)
          · intro h
            exact absurd (Or.inr (Or.inl ⟨hmem.1, hmem.2, hfar⟩)) h
        · rename_i hfar
          rw [finish_isOk, mk'_isOk_iff]
          constructor
          · intro hacc h
            rcases h with h | h | h
            · exact hp0 h
            · exact hfar h.2.2
            · exact h hacc
          · intro h
            by_contra hacc
            exact h (Or.inr (Or.inr hacc))
      · rename_i hmem
        rw [finish_isOk, mk'_isOk_iff]
        constructor
        · intro hacc h
          rcases h with h | h | h
          · exact hp0 h
          · exact hmem ⟨h.1, h.2.1⟩
          · exact h hacc
        · intro h
          by_contra hacc
          exact h (Or.inr (Or.inr hacc))
  · intro p allPs c hne hmem hok
    unfold CTR.init at hok
    split at hok
    · exact absurd hok (by simp)
    · rw [if_pos ⟨hne, hmem⟩] at hok
      split at hok
      · exact absurd hok (by simp)
      · obtain ⟨d, -, hc⟩ := finish_ok_elim hok
        rw [hc]

/-- Witness for `C6_ctr_error_characterization`: at `p = 1/2`,
`all_ps = [1/10, 1]`, construction succeeds and `p` is snapped to
`closest = 1/10`. -/
theorem C6_ctr_error_characterization_witness :
    (([1/10, 1] : List ℚ) ≠ [] ∧ (1/2 : ℚ) ∉ ([1/10, 1] : List ℚ) ∧
      CTR.init (1/2) [1/10, 1] = .ok ⟨1/10, 9/10, ⟨[1/10, 1]⟩⟩) ∧
      (CTR.mk (1/10) (9/10) ⟨[1/10, 1]⟩).p = closest [1/10, 1] (1/2) :=
  have hne : ([1/10, 1] : List ℚ) ≠ [] := by simp
  have hmem : (1/2 : ℚ) ∉ ([1/10, 1] : List ℚ) := by
    simp only [List.mem_cons, List.mem_singleton]
    push_neg
    norm_num
  ⟨⟨hne, hmem, ctr_init_snap_example⟩,
    C6_ctr_error_characterization.2 (1/2) [1/10, 1] ⟨1/10, 9/10, ⟨[1/10, 1]⟩⟩
      hne hmem ctr_init_snap_example⟩

/-- **C6** counterexample: `p = 1/2` is farther than `1e-10` relative
tolerance from both support values `1/10` and `1`, so by the claim
construction must raise an invalid-value error; instead the code succeeds
and silently snaps `p` down to `1/10`. -/
theorem C6_counterexample :
    |(1/2 : ℚ) - 1/10| / (1/2) > tol10 ∧ |(1/2 : ℚ) - 1| / (1/2) > tol10 ∧
      CTR.init (1/2) [1/10, 1] = .ok ⟨1/10, 9/10, ⟨[1/10, 1]⟩⟩ := by
  refine ⟨?_, ?_, ctr_init_snap_example⟩
  · rw [abs_of_nonneg (by norm_num : (0:ℚ) ≤ 1/2 - 1/10)]
    norm_num [tol10]
  · rw [abs_of_nonpos (by norm_num : (1/2 : ℚ) - 1 ≤ 0)]
    norm_num [tol10]

/-! Telescoping of the mass strictly above a support point. -/

theorem filter_gt_all {p : ℚ} :
    ∀ (l : List ℚ) (prev : ℚ), (∀ y ∈ l, p < y) →
      ((l.zip (diffs prev l)).filter (fun x => decide (p < x.1))).map Prod.snd
        = diffs prev l := by
  intro l
  induction l with
  | nil => intro prev _; rfl
  | cons x rest ih =>
    intro prev h
    have hx : p < x := h x (List.mem_cons_self x rest)
    simp only [diffs, List.zip_cons_cons, List.filter_cons, decide_eq_true_eq]
    rw [if_pos hx]
    simp only [List.map_cons, List.cons.injEq, true_and]
    exact ih x (fun y hy => h y (List.mem_cons_of_mem x hy))

theorem sumAbove_eq {p : ℚ} :
    ∀ (l : List ℚ) (prev : ℚ), List.Chain (· ≤ ·) prev l → prev ≤ p →
      p ∈ prev :: l →
      (((l.zip (diffs prev l)).filter (fun x => decide (p < x.1))).map Prod.snd).sum
        = l.getLastD prev - p := by
  intro l
  induction l with
  | nil =>
    intro prev _ _ hmem
    have : p = prev := by simpa using hmem
    simp [diffs, this]
  | cons x rest ih =>
    intro prev hchain hprev hmem
    have hchain' : List.Chain (· ≤ ·) x rest := (List.chain_cons.mp hchain).2
    have hpx : prev ≤ x := (List.chain_cons.mp hchain).1
    have hrest : ∀ y ∈ rest, x ≤ y := by
      intro y hy
      have hpw := (List.chain_iff_pairwise).mp hchain'
      exact (List.pairwise_cons.mp hpw).1 y hy
    simp only [diffs, List.zip_cons_cons, List.filter_cons, decide_eq_true_eq]
    by_cases hx : p < x
    · have hpprev : p = prev := by
        rcases List.mem_cons.mp hmem with h | h
        · exact h
        rcases List.mem_cons.mp h with h | h
        · exact absurd h.symm.le (not_le.mpr hx)
        · exact absurd (hx.trans_le (hrest p h)) (lt_irrefl p)
      rw [if_pos hx]
      simp only [List.map_cons, List.sum_cons]
      rw [filter_gt_all rest x (fun y hy => hx.trans_le (hrest y hy)), diffs_sum]
      subst hpprev
      cases rest with
      | nil => simp
      | cons z t =>
        simp only [List.getLastD_cons]
        ring
    · rw [if_neg hx]
      have hxp : x ≤ p := not_lt.mp hx
      have hmem' : p ∈ x :: rest := by
        rcases List.mem_cons.mp hmem with h | h
        · have hpx2 : prev = x := le_antisymm hpx (h ▸ hxp)
          rw [h, hpx2]
          exact List.mem_cons_self x rest
        · exact h
      rw [ih x hchain' hxp hmem']
      cases rest with
      | nil => simp
      | cons z t => simp only [List.getLastD_cons]

/-- For a well-formed discrete `PDist`, the mass strictly above a support
point `p` is exactly `1 - p` (the CDF-equals-p convention). -/
theorem complement_eq_one_sub {ps : List ℚ} {d : PDist} {p : ℚ}
    (hok : PDist.mk' ps = .ok d) (hne : d.ps ≠ [])
    (hone : ∀ x ∈ (ps.insertionSort (· ≤ ·)).dropLast, x ≤ 1)
    (hp : p ∈ d.ps) : d.complement p = 1 - p := by
  obtain ⟨hsorted, hbound, hlast, hprobs, -⟩ := pdist_invariant hok hne hone
  have hchain : List.Chain (· ≤ ·) 0 d.ps := by
    rw [List.chain_iff_pairwise, List.pairwise_cons]
    exact ⟨fun x hx => (hbound x hx).1.le, hsorted⟩
  have h0p : (0 : ℚ) ≤ p := (hbound p hp).1.le
  unfold PDist.complement
  rw [if_neg hne, hprobs]
  show ((((d.ps).zip (diffs 0 d.ps)).filter (fun x => decide (p < x.1))).map
    Prod.snd).sum = 1 - p
  rw [sumAbove_eq d.ps 0 hchain h0p (List.mem_cons_of_mem 0 hp), hlast]

/-- **C7**: the null distribution's `complement` returns `1 - p` for the
continuous distribution, and for a (well-formed) discrete distribution the
probability mass strictly above `p`, which under the CDF-equals-p convention
equals `1 - p` for every support point `p`; the `CTR` constructor derives
`q` from it (ctr.py:52).  (`PDist.complement` itself is modelled from the
spec, being absent from src/pdist.py.) -/
theorem C7_complement_correct :
    (∀ (d : PDist) (p : ℚ), d.continuous → d.complement p = 1 - p) ∧
    (∀ (ps : List ℚ) (d : PDist) (p : ℚ),
      PDist.mk' ps = .ok d → d.ps ≠ [] →
      (∀ x ∈ (ps.insertionSort (· ≤ ·)).dropLast, x ≤ 1) → p ∈ d.ps →
      d.complement p =
          (((d.ps.zip d.probs).filter (fun x => decide (p < x.1))).map Prod.snd).sum
        ∧ d.complement p = 1 - p) ∧
    (∀ (p : ℚ) (allPs : List ℚ) (c : CTR),
      CTR.init p allPs = .ok c → c.q = c.nulldist.complement c.p) := by
  refine ⟨?_, ?_, ?_⟩
  · intro d p hcont
    have hps : d.ps = [] := hcont
    unfold PDist.complement
    rw [if_pos hps]
  · intro ps d p hok hne hone hp
    refine ⟨?_, complement_eq_one_sub hok hne hone hp⟩
    unfold PDist.complement
    rw [if_neg hne]
  · intro p allPs c hok
    unfold CTR.init at hok
    split at hok
    · exact absurd hok (by simp)
    · split at hok
      · split at hok
        · exact absurd hok (by simp)
        · obtain ⟨d, -, hc⟩ := finish_ok_elim hok
          rw [hc]
      · obtain ⟨d, -, hc⟩ := finish_ok_elim hok
        rw [hc]

/-- Witness for `C7_complement_correct`: the continuous distribution at
`p = 1/3`, the discrete distribution `[1/2, 1]` at `p = 1/2`, and the
constructed `CTR(1/2, [1/2, 1])`. -/
theorem C7_complement_correct_witness :
    ((⟨[]⟩ : PDist).continuous ∧ (⟨[]⟩ : PDist).complement (1/3) = 1 - 1/3) ∧
      (PDist.mk' [1/2, 1] = .ok ⟨[1/2, 1]⟩ ∧ (1/2 : ℚ) ∈ ([1/2, 1] : List ℚ) ∧
        (⟨[1/2, 1]⟩ : PDist).complement (1/2) = 1 - 1/2) ∧
      (CTR.init (1/2) [1/2, 1] = .ok ⟨1/2, 1/2, ⟨[1/2, 1]⟩⟩ ∧
        (CTR.mk (1/2) (1/2) ⟨[1/2, 1]⟩).q =
          (CTR.mk (1/2) (1/2) ⟨[1/2, 1]⟩).nulldist.complement
            (CTR.mk (1/2) (1/2) ⟨[1/2, 1]⟩).p) := by
  have hmk : PDist.mk' [1/2, 1] = .ok ⟨[1/2, 1]⟩ := by
    norm_num [PDist.mk', List.insertionSort, List.orderedInsert, tol10, abs_lt] <;>
      (intro h; simp at h)
  have hmem : (1/2 : ℚ) ∈ ([1/2, 1] : List ℚ) := List.mem_cons_self _ _
  have hinit : CTR.init (1/2) [1/2, 1] = .ok ⟨1/2, 1/2, ⟨[1/2, 1]⟩⟩ := by
    have hcompl : PDist.complement ⟨[1/2, 1]⟩ (1/2) = 1/2 := by
      norm_num [PDist.complement, PDist.probs, diffs, List.filter_cons,
        decide_eq_true_eq]
    simp only [CTR.init]
    rw [if_neg (by norm_num), if_neg, CTR.finish, hmk]
    · simp only [Except.map, hcompl]
    · intro h
      exact h.2 hmem
  refine ⟨⟨rfl, C7_complement_correct.1 ⟨[]⟩ (1/3) rfl⟩,
    ⟨hmk, hmem, (C7_complement_correct.2.1 [1/2, 1] ⟨[1/2, 1]⟩ (1/2) hmk (by simp)
      (by norm_num [List.insertionSort, List.orderedInsert]) hmem).2⟩,
    ⟨hinit, C7_complement_correct.2.2 (1/2) [1/2, 1] ⟨1/2, 1/2, ⟨[1/2, 1]⟩⟩ hinit⟩⟩

/-! ## `ctr.py`: statistic parameters, `flip_pq` and `apply_statistics` -/

/-- The argument names a combining statistic may declare (ctr.py:331-335):
the p values `p`, their complements `q`, and the weights `w`. -/
inductive Par
  | p
  | q
  | w
deriving DecidableEq, Repr

/-- `flip_pq` (ctr.py:287-296) on a single parameter name: swap `"p"` and
`"q"`, leave anything else. -/
def flip_pq : Par → Par
  | .p => .q
  | .q => .p
  | .w => .w

/-- The `alternative` argument of `combine`/`apply_statistics`. -/
inductive Alternative
  | less
  | greater
  | twoSided
deriving DecidableEq, Repr

/-- `np.minimum` on arrays is the elementwise minimum. -/
instance instMinList {α : Type} [Min α] : Min (List α) :=
  ⟨List.zipWith min⟩

/-- `apply_statistics` (ctr.py:298-311): for `"less"` each declared
parameter is looked up directly in `data`; for `"greater"` each parameter
is substituted through `flip_pq` before lookup; for `"two-sided"` the result
is `np.minimum` of the two orientations.  (The data is a total assignment
`Par → δ`, so the kwargs construction is lookup composition; the invalid
`alternative` string branch is unrepresentable in the typed embedding.) -/
def apply_statistics {δ ρ : Type} [Min ρ] (statistic : (Par → δ) → ρ)
    (data : Par → δ) : Alternative → ρ
  | .less => statistic data
  | .greater => statistic (fun par => data (flip_pq par))
  | .twoSided =>
      min (statistic data) (statistic (fun par => data (flip_pq par)))

/-- **C5**: evaluating a statistic with `alternative="greater"` equals
evaluating the same statistic with the `p` and `q` data swapped (the
`flip_pq` name swap, which exchanges `p` and `q` and fixes `w`), and
evaluating with `alternative="two-sided"` is exactly the elementwise minimum
of the `"less"` and `"greater"` evaluations — no doubling is applied to the
statistic (and `combine` passes the resulting statistic to the estimator
unchanged). -/
theorem C5_alternative_semantics :
    (∀ {δ ρ : Type} [Min ρ] (statistic : (Par → δ) → ρ) (data : Par → δ),
      apply_statistics statistic data .greater
          = statistic (fun par => data (flip_pq par)) ∧
        apply_statistics statistic data .twoSided
          = min (apply_statistics statistic data .less)
              (apply_statistics statistic data .greater)) ∧
      (flip_pq .p = .q ∧ flip_pq .q = .p ∧ flip_pq .w = .w) ∧
      ∀ {α : Type} [Min α] (a b : List α), min a b = List.zipWith min a b :=
  ⟨fun _ _ => ⟨rfl, rfl⟩, ⟨rfl, rfl, rfl⟩, fun _ _ => rfl⟩

/-! ## `ctr.py`: the registry of combining statistics (ctr.py:268-283)

The external transcendental functions are not part of this repository:
`np.log` enters as a parameter `L : ℚ → ℚ` and `scipy.special.erfinv` as
`E : ℚ → ℚ` (arbitrary monotone models of the float implementations; the
float infinity `p/q → inf` at `q = 0` is modelled explicitly by `ratio`). -/

/-- The named combining methods. -/
inductive MethodName
  | fisher
  | pearson
  | mudholkar_george
  | stouffer
  | tippett
  | edgington
  | edgington_sym
  | simes
deriving DecidableEq, Repr

/-- Normal (unweighted) or weighted variant of a statistic. -/
inductive Variant
  | normal
  | weighted
deriving DecidableEq, Repr

/-- The keys of the `combining_statistics` dictionary (ctr.py:268-283):
every method has a normal variant; all but `tippett` and `simes` have a
weighted one. -/
def combining_statistics : List (MethodName × Variant) :=
  [(.fisher, .normal), (.pearson, .normal), (.mudholkar_george, .normal),
    (.stouffer, .normal), (.tippett, .normal), (.edgington, .normal),
    (.edgington_sym, .normal), (.simes, .normal),
    (.fisher, .weighted), (.pearson, .weighted), (.mudholkar_george, .weighted),
    (.stouffer, .weighted), (.edgington, .weighted), (.edgington_sym, .weighted)]

/-- Float division `a / b` with `b = 0` giving `+inf` (the numerators in
`p/q` are positive in all uses). -/
def ratio (a b : ℚ) : WithTop ℚ :=
  if b = 0 then ⊤ else ((a / b : ℚ) : WithTop ℚ)

/-- Float multiplication of a weight with an extended term: `w * inf = inf`
for `w > 0`, matching floats.  The float product `0 * inf` is NaN, which
`WithTop ℚ` cannot represent; the `w = 0` branch below returns the junk
value 0 and is OUT OF SCOPE of every theorem about weighted statistics
(they all assume strictly positive weights).  The true float behaviour at
`w = 0` — NaN poisoning the whole statistic and `counted_p` counting
nothing — is captured separately by the `FVal` model (`FVal.scale`) and
exhibited in the C8 counterexample. -/
def wmul (w : ℚ) (x : WithTop ℚ) : WithTop ℚ :=
  match x with
  | none => if w = 0 then 0 else ⊤
  | some v => ((w * v : ℚ) : WithTop ℚ)

/-- `w.dot(v)` on per-test vectors. -/
def dot (a b : List ℚ) : ℚ :=
  (List.zipWith (· * ·) a b).sum

/-- `np.min` over the test axis of one column; `⊤` on the empty column
(numpy would raise — `combine` only reaches this with at least two tests). -/
def listMin (l : List (WithTop ℚ)) : WithTop ℚ :=
  l.foldr min ⊤

/-- `scipy.stats.rankdata(method="ordinal")` within one column: the rank of
entry `i` is 1 plus the number of entries that are smaller, or equal with a
smaller index (ordinal ranks break ties by position). -/
def ordRank (l : List ℚ) (i : ℕ) : ℕ :=
  1 + (List.range l.length).countP
    (fun j => decide (l.getD j 0 < l.getD i 0 ∨ (l.getD j 0 = l.getD i 0 ∧ j < i)))

/-- `min(p / rankdata(p, axis=0, method="ordinal"), axis=0)` on one column. -/
def simesVal (l : List ℚ) : WithTop ℚ :=
  listMin ((List.range l.length).map
    (fun i => ((l.getD i 0 / (ordRank l i : ℚ) : ℚ) : WithTop ℚ)))

/-- One column (the per-test vector of one Monte Carlo sample, or the
observed vector) of each statistic of ctr.py:268-283.  The `w` argument is
only consulted by weighted variants; the weighted `tippett`/`simes` entries
do not exist in the registry (`combine` rejects them before evaluation) and
are mapped to the junk value `⊤`.

`np.log` and `scipy.special.erfinv` enter as total functions `L`, `E` on
`ℚ`, so the infinite float values `log(0) = -inf` and `erfinv(1) = +inf`
appear in the weighted `pearson`/`stouffer` branches as (arbitrarily large)
finite values: with strictly positive weights this preserves exactly the
ordering conclusions the monotone-`L`/`E` theorems draw, because an
infinite float term drives the float statistic to `±inf` in the same
direction.  With a ZERO weight the float statistic is instead
`0 * (±inf) = NaN`, which no ordering models — that corner is out of scope
here and is treated faithfully by the `FVal` float model below
(`stoufferWeightedF`), where it refutes unrestricted monotonicity (C8). -/
def statColumn (L E : ℚ → ℚ) :
    MethodName → Variant → List ℚ → List ℚ → List ℚ → WithTop ℚ
  | .fisher, .normal, _, pcol, _ => (((pcol.map L).sum : ℚ) : WithTop ℚ)
  | .pearson, .normal, _, _, qcol => ((-(qcol.map L).sum : ℚ) : WithTop ℚ)
  | .mudholkar_george, .normal, _, pcol, qcol =>
      (List.zipWith (fun a b => (ratio a b).map L) pcol qcol).sum
  | .stouffer, .normal, _, pcol, _ =>
      (((pcol.map (fun x => E (2 * x - 1))).sum : ℚ) : WithTop ℚ)
  | .tippett, .normal, _, pcol, _ =>
      listMin (pcol.map (fun (x : ℚ) => (x : WithTop ℚ)))
  | .edgington, .normal, _, pcol, _ => ((pcol.sum : ℚ) : WithTop ℚ)
  | .edgington_sym, .normal, _, pcol, qcol =>
      (((List.zipWith (fun a b => a - b) pcol qcol).sum : ℚ) : WithTop ℚ)
  | .simes, .normal, _, pcol, _ => simesVal pcol
  | .fisher, .weighted, w, pcol, _ => ((dot w (pcol.map L) : ℚ) : WithTop ℚ)
  | .pearson, .weighted, w, _, qcol => ((-dot w (qcol.map L) : ℚ) : WithTop ℚ)
  | .mudholkar_george, .weighted, w, pcol, qcol =>
      (List.zipWith wmul w (List.zipWith (fun a b => (ratio a b).map L) pcol qcol)).sum
  | .stouffer, .weighted, w, pcol, _ =>
      ((dot w (pcol.map (fun x => E (2 * x - 1))) : ℚ) : WithTop ℚ)
  | .tippett, .weighted, _, _, _ => ⊤
  | .edgington, .weighted, w, pcol, _ => ((dot w pcol : ℚ) : WithTop ℚ)
  | .edgington_sym, .weighted, w, pcol, qcol =>
      ((dot w (List.zipWith (fun a b => a + 1 - b) pcol qcol) : ℚ) : WithTop ℚ)
  | .simes, .weighted, _, _, _ => ⊤

/-- The vectorized statistic over a matrix of columns: `data` assigns each
parameter name its list of columns (the `w` vector is one-dimensional and
passed separately, exactly as `flip_pq` never touches `"w"`). -/
def statMatrix (L E : ℚ → ℚ) (m : MethodName) (variant : Variant) (w : List ℚ)
    (data : Par → List (List ℚ)) : List (WithTop ℚ) :=
  List.zipWith (statColumn L E m variant w) (data .p) (data .q)

/-! ## `ctr.py`: `combine` (ctr.py:313-430)

NumPy's RNG is external state; the per-test null sample matrices that
`ctr.nulldist.sample`/`sample_both` produce from it enter the embedding as
the explicit column lists `nullP`, `nullQ` (a fixed random state and
sampling configuration corresponds to fixed `nullP`, `nullQ`).  `method` is
one of the named methods (the user-supplied-callable path is outside the
typed registry model). -/
/-- Statistic resolution (ctr.py:382-393): without weights the normal
variant; with weights the weighted variant when the registry has one, else
the `No weighted version` error. -/
def resolveVariant (method : MethodName) : Option (List ℚ) → Except String Variant
  | none => .ok .normal
  | some _ =>
      if (method, Variant.weighted) ∈ combining_statistics then .ok .weighted
      else .error "No weighted version of method"

/-- The observed data (ctr.py:417-420): one column holding each test's `p`,
one holding each test's `q`. -/
def dataOrig (ctrs : List CTR) : Par → List (List ℚ)
  | .p => [ctrs.map (fun c => c.p)]
  | .q => [ctrs.map (fun c => c.q)]
  | .w => []

/-- The sampled null data (ctr.py:403-415), provided as explicit columns. -/
def dataNull (nullP nullQ : List (List ℚ)) : Par → List (List ℚ)
  | .p => nullP
  | .q => nullQ
  | .w => []

noncomputable def combine (L E : ℚ → ℚ) (ctrs : List CTR)
    (weights : Option (List ℚ)) (method : MethodName)
    (alternative : Alternative) (nullP nullQ : List (List ℚ))
    (rtol atol : ℚ) : Except String Combined_P_Value :=
  if ctrs.length = 1 then .ok ⟨ctrs.headI.p, 0⟩
  else
    match resolveVariant method weights with
    | .error e => .error e
    | .ok v =>
        .ok (counted_p_spec
          ((apply_statistics (statMatrix L E method v (weights.getD []))
            (dataOrig ctrs) alternative).headI)
          (apply_statistics (statMatrix L E method v (weights.getD []))
            (dataNull nullP nullQ) alternative)
          rtol atol)

/-- **C4**: `combine` with exactly one test result returns that result's own
p-value with standard deviation exactly 0, for every choice of the remaining
parameters — in particular independently of the sampled null data (`nullP`,
`nullQ`), i.e. no sampling affects the result. -/
theorem C4_combine_single (L E : ℚ → ℚ) (ctrs : List CTR)
    (weights : Option (List ℚ)) (method : MethodName)
    (alternative : Alternative) (nullP nullQ : List (List ℚ))
    (rtol atol : ℚ) (h : ctrs.length = 1) :
    combine L E ctrs weights method alternative nullP nullQ rtol atol
      = .ok ⟨ctrs.headI.p, 0⟩ := by
  unfold combine
  rw [if_pos h]

/-- Witness for `C4_combine_single` at a concrete singleton list (and with
two different null samples, showing the result does not depend on them). -/
theorem C4_combine_single_witness :
    ([CTR.mk (1/2) (1/2) ⟨[1/2, 1]⟩].length = 1) ∧
      combine id id [CTR.mk (1/2) (1/2) ⟨[1/2, 1]⟩] none .fisher .less
          [[1/2], [1]] [[1/2], [1]] 0 0 = .ok ⟨1/2, 0⟩ ∧
      combine id id [CTR.mk (1/2) (1/2) ⟨[1/2, 1]⟩] (some [5]) .tippett .twoSided
          [] [] (1/10) (1/10) = .ok ⟨1/2, 0⟩ :=
  ⟨rfl,
    C4_combine_single id id [CTR.mk (1/2) (1/2) ⟨[1/2, 1]⟩] none .fisher .less
      [[1/2], [1]] [[1/2], [1]] 0 0 rfl,
    C4_combine_single id id [CTR.mk (1/2) (1/2) ⟨[1/2, 1]⟩] (some [5]) .tippett
      .twoSided [] [] (1/10) (1/10) rfl⟩

/-! ## Counting and minimum lemmas (towards monotonicity of `combine`) -/

theorem countP_lt_countP {α : Type} {l : List α} {p q : α → Bool}
    (hpq : ∀ a ∈ l, p a = true → q a = true)
    (a : α) (ha : a ∈ l) (hqa : q a = true) (hpa : ¬ p a = true) :
    l.countP p < l.countP q := by
  induction l with
  | nil => cases ha
  | cons x t ih =>
    rw [List.countP_cons, List.countP_cons]
    rcases List.mem_cons.mp ha with rfl | hat
    · rw [if_neg hpa, if_pos hqa]
      have hmono : t.countP p ≤ t.countP q :=
        List.countP_mono_left (fun b hb hpb => hpq b (List.mem_cons_of_mem a hb) hpb)
      omega
    · have hstrict := ih (fun b hb hpb => hpq b (List.mem_cons_of_mem x hb) hpb) hat
      have hif : (if p x = true then 1 else 0) ≤ (if q x = true then 1 else 0) := by
        by_cases hpx : p x = true
        · rw [if_pos hpx, if_pos (hpq x (List.mem_cons_self x t) hpx)]
        · rw [if_neg hpx]
          split <;> omega
      omega

theorem countP_disjoint_le {α : Type} {l : List α} {p q : α → Bool}
    (h : ∀ a ∈ l, ¬(p a = true ∧ q a = true)) :
    l.countP p + l.countP q ≤ l.length := by
  induction l with
  | nil => simp
  | cons x t ih =>
    rw [List.countP_cons, List.countP_cons, List.length_cons]
    have ht := ih (fun a ha => h a (List.mem_cons_of_mem x ha))
    have hx := h x (List.mem_cons_self x t)
    by_cases hpx : p x = true
    · rw [if_pos hpx, if_neg (fun hq => hx ⟨hpx, hq⟩)]
      omega
    · rw [if_neg hpx]
      have hq1 : (if q x = true then 1 else 0) ≤ 1 := by split <;> omega
      omega

/-- `l.countP f` as a count over positions. -/
theorem countP_eq_countP_range (l : List ℚ) (f : ℚ → Bool) :
    l.countP f = (List.range l.length).countP (fun j => f (l.getD j 0)) := by
  induction l with
  | nil => rfl
  | cons x t ih =>
    rw [List.countP_cons, List.length_cons, List.range_succ_eq_map,
      List.countP_cons, List.countP_map]
    have hcomp : ((fun j => f ((x :: t).getD j 0)) ∘ Nat.succ)
        = (fun j => f (t.getD j 0)) := by
      funext j
      simp [List.getD_cons_succ]
    rw [hcomp]
    simp only [List.getD_cons_zero]
    omega

theorem listMin_le_of_mem {l : List (WithTop ℚ)} {x : WithTop ℚ} (h : x ∈ l) :
    listMin l ≤ x := by
  induction l with
  | nil => cases h
  | cons y t ih =>
    rcases List.mem_cons.mp h with rfl | ht
    · exact min_le_left _ _
    · exact le_trans (min_le_right _ _) (ih ht)

theorem le_listMin {l : List (WithTop ℚ)} {a : WithTop ℚ}
    (h : ∀ x ∈ l, a ≤ x) : a ≤ listMin l := by
  induction l with
  | nil => exact le_top
  | cons y t ih =>
    exact le_min (h y (List.mem_cons_self y t))
      (ih (fun x hx => h x (List.mem_cons_of_mem y hx)))

theorem listMin_mono {l1 l2 : List (WithTop ℚ)}
    (h : List.Forall₂ (· ≤ ·) l1 l2) : listMin l1 ≤ listMin l2 := by
  induction h with
  | nil => exact le_refl _
  | cons hab _ ih => exact min_le_min hab ih

/-! Sorted lists: position-wise bounds and counting. -/

theorem sorted_getD_mono {s : List ℚ} (hs : s.Sorted (· ≤ ·)) {i j : ℕ}
    (hij : i ≤ j) (hj : j < s.length) : s.getD i 0 ≤ s.getD j 0 := by
  rcases eq_or_lt_of_le hij with rfl | hlt
  · exact le_refl _
  · have hi : i < s.length := lt_trans hlt hj
    rw [List.getD_eq_getElem s 0 hi, List.getD_eq_getElem s 0 hj]
    exact List.pairwise_iff_getElem.mp hs i j hi hj hlt

theorem mem_drop_ge {s : List ℚ} (hs : s.Sorted (· ≤ ·)) {k : ℕ}
    (hk : k < s.length) {y : ℚ} (hy : y ∈ s.drop k) : s.getD k 0 ≤ y := by
  obtain ⟨m, hm, rfl⟩ := List.mem_iff_getElem.mp hy
  have hklen : k + m < s.length := by
    have := hm
    simp only [List.length_drop] at this
    omega
  rw [List.getElem_drop]
  rw [← List.getD_eq_getElem s 0 hklen]
  exact sorted_getD_mono hs (Nat.le_add_right k m) hklen

theorem mem_take_le {s : List ℚ} (hs : s.Sorted (· ≤ ·)) {k : ℕ}
    (hk : k < s.length) {y : ℚ} (hy : y ∈ s.take (k + 1)) : y ≤ s.getD k 0 := by
  obtain ⟨m, hm, rfl⟩ := List.mem_iff_getElem.mp hy
  have hmk : m ≤ k := by
    have := hm
    simp only [List.length_take] at this
    omega
  have hmlen : m < s.length := by omega
  rw [List.getElem_take]
  rw [← List.getD_eq_getElem s 0 hmlen]
  exact sorted_getD_mono hs hmk hk

/-- In a sorted list, at most `k` entries lie below a value smaller than the
entry at position `k`. -/
theorem sorted_countP_le_of_lt {s : List ℚ} (hs : s.Sorted (· ≤ ·)) {k : ℕ}
    (hk : k < s.length) {v : ℚ} (hv : v < s.getD k 0) :
    s.countP (fun y => decide (y ≤ v)) ≤ k := by
  conv_lhs => rw [← List.take_append_drop k s]
  rw [List.countP_append]
  have h1 : (s.take k).countP (fun y => decide (y ≤ v)) ≤ k :=
    le_trans (List.countP_le_length _) (by simp [List.length_take])
  have h2 : (s.drop k).countP (fun y => decide (y ≤ v)) = 0 := by
    rw [List.countP_eq_zero]
    intro y hy
    simp only [decide_eq_true_eq]
    exact not_le.mpr (lt_of_lt_of_le hv (mem_drop_ge hs hk hy))
  omega

/-- In a sorted list, at least `k+1` entries lie strictly below a value
greater than the entry at position `k`. -/
theorem sorted_countP_ge_of_lt {s : List ℚ} (hs : s.Sorted (· ≤ ·)) {k : ℕ}
    (hk : k < s.length) {v : ℚ} (hv : s.getD k 0 < v) :
    k + 1 ≤ s.countP (fun y => decide (y < v)) := by
  conv_rhs => rw [← List.take_append_drop (k + 1) s]
  rw [List.countP_append]
  have h1 : (s.take (k + 1)).countP (fun y => decide (y < v)) = k + 1 := by
    rw [List.countP_eq_length.mpr, List.length_take]
    · omega
    · intro y hy
      simp only [decide_eq_true_eq]
      exact lt_of_le_of_lt (mem_take_le hs hk hy) hv
  omega

/-- In a sorted list, at least `length - k` entries are at least the entry at
position `k`, and at least `k+1` entries are at most it. -/
theorem sorted_countP_bounds {s : List ℚ} (hs : s.Sorted (· ≤ ·)) {k : ℕ}
    (hk : k < s.length) :
    s.length - k ≤ s.countP (fun y => decide (s.getD k 0 ≤ y)) ∧
      k + 1 ≤ s.countP (fun y => decide (y ≤ s.getD k 0)) := by
  set v := s.getD k 0 with hv
  constructor
  · have hsplit : s.countP (fun y => decide (v ≤ y))
        = (s.take k).countP (fun y => decide (v ≤ y))
          + (s.drop k).countP (fun y => decide (v ≤ y)) := by
      conv_lhs => rw [← List.take_append_drop k s]
      rw [List.countP_append]
    have h2 : (s.drop k).countP (fun y => decide (v ≤ y)) = s.length - k := by
      rw [List.countP_eq_length.mpr, List.length_drop]
      intro y hy
      simp only [decide_eq_true_eq]
      exact mem_drop_ge hs hk hy
    omega
  · have hsplit : s.countP (fun y => decide (y ≤ v))
        = (s.take (k + 1)).countP (fun y => decide (y ≤ v))
          + (s.drop (k + 1)).countP (fun y => decide (y ≤ v)) := by
      conv_lhs => rw [← List.take_append_drop (k + 1) s]
      rw [List.countP_append]
    have h1 : (s.take (k + 1)).countP (fun y => decide (y ≤ v)) = k + 1 := by
      rw [List.countP_eq_length.mpr, List.length_take]
      · omega
      · intro y hy
        simp only [decide_eq_true_eq]
        exact mem_take_le hs hk hy
    omega

/-- Order statistics are pointwise monotone: if `x ≤ y` pointwise then the
sorted version of `x` is pointwise at most the sorted version of `y`. -/
theorem sorted_pointwise_mono {x y : List ℚ} (h : List.Forall₂ (· ≤ ·) x y)
    {k : ℕ} (hk : k < x.length) :
    (x.insertionSort (· ≤ ·)).getD k 0 ≤ (y.insertionSort (· ≤ ·)).getD k 0 := by
  set s := x.insertionSort (· ≤ ·) with hsdef
  set t := y.insertionSort (· ≤ ·) with htdef
  have hxs : x.length = s.length := ((List.perm_insertionSort (· ≤ ·) x).length_eq).symm
  have hyt : y.length = t.length := ((List.perm_insertionSort (· ≤ ·) y).length_eq).symm
  have hxy : x.length = y.length := h.length_eq
  by_contra hcon
  push_neg at hcon
  have hks : k < s.length := hxs ▸ hk
  have hkt : k < t.length := by omega
  have hA := (sorted_countP_bounds (List.sorted_insertionSort (· ≤ ·) x) hks).1
  have hB := (sorted_countP_bounds (List.sorted_insertionSort (· ≤ ·) y) hkt).2
  rw [List.Perm.countP_eq _ (List.perm_insertionSort (· ≤ ·) x),
    countP_eq_countP_range] at hA
  rw [List.Perm.countP_eq _ (List.perm_insertionSort (· ≤ ·) y),
    countP_eq_countP_range] at hB
  rw [← hsdef] at hA
  rw [← htdef] at hB
  have hdisj := countP_disjoint_le
    (l := List.range x.length)
    (p := fun j => decide (s.getD k 0 ≤ x.getD j 0))
    (q := fun j => decide (y.getD j 0 ≤ t.getD k 0))
    (by
      intro j hj hand
      simp only [decide_eq_true_eq] at hand
      have hjx : j < x.length := List.mem_range.mp hj
      have hjy : j < y.length := by omega
      have hxyj : x.getD j 0 ≤ y.getD j 0 := by
        rw [List.getD_eq_getElem x 0 hjx, List.getD_eq_getElem y 0 hjy]
        exact (List.forall₂_iff_get.mp h).2 j hjx hjy
      have : s.getD k 0 ≤ t.getD k 0 := le_trans hand.1 (le_trans hxyj hand.2)
      exact absurd this (not_le.mpr hcon))
  rw [← hxy] at hB
  simp only [List.length_range] at hdisj
  omega

/-! Ordinal ranks: a compatible bijection onto `{1, …, n}`. -/

theorem ordRank_pos (l : List ℚ) (i : ℕ) : 0 < ordRank l i := by
  unfold ordRank
  omega

theorem ordRank_le_length {l : List ℚ} {i : ℕ} (hi : i < l.length) :
    ordRank l i ≤ l.length := by
  have h := countP_lt_countP
    (l := List.range l.length)
    (p := fun j => decide (l.getD j 0 < l.getD i 0
      ∨ (l.getD j 0 = l.getD i 0 ∧ j < i)))
    (q := fun _ => true)
    (fun a _ _ => rfl) i (List.mem_range.mpr hi) rfl
    (by simp)
  rw [List.countP_true] at h
  unfold ordRank
  simp only [List.length_range] at h
  omega

theorem ordRank_lt_ordRank {l : List ℚ} {i j : ℕ} (hi : i < l.length)
    (h : l.getD i 0 < l.getD j 0 ∨ (l.getD i 0 = l.getD j 0 ∧ i < j)) :
    ordRank l i < ordRank l j := by
  unfold ordRank
  have hcount := countP_lt_countP
    (l := List.range l.length)
    (p := fun k => decide (l.getD k 0 < l.getD i 0
      ∨ (l.getD k 0 = l.getD i 0 ∧ k < i)))
    (q := fun k => decide (l.getD k 0 < l.getD j 0
      ∨ (l.getD k 0 = l.getD j 0 ∧ k < j)))
    (by
      intro a _ hpa
      simp only [decide_eq_true_eq] at hpa ⊢
      rcases h with h | h
      · rcases hpa with hpa | hpa
        · exact Or.inl (lt_trans hpa h)
        · exact Or.inl (hpa.1 ▸ h)
      · rcases hpa with hpa | hpa
        · exact Or.inl (h.1 ▸ hpa)
        · exact Or.inr ⟨hpa.1.trans h.1, lt_trans hpa.2 h.2⟩)
    i (List.mem_range.mpr hi)
    (by
      simp only [decide_eq_true_eq]
      exact h)
    (by
      simp only [decide_eq_true_eq]
      rintro (hlt | ⟨-, hlt⟩)
      · exact lt_irrefl _ hlt
      · exact lt_irrefl _ hlt)
  omega

theorem ordRank_inj {l : List ℚ} {i j : ℕ} (hi : i < l.length)
    (hj : j < l.length) (hne : i ≠ j) : ordRank l i ≠ ordRank l j := by
  rcases lt_trichotomy (l.getD i 0) (l.getD j 0) with hlt | heq | hgt
  · exact ne_of_lt (ordRank_lt_ordRank hi (Or.inl hlt))
  · rcases lt_or_gt_of_ne hne with hij | hij
    · exact ne_of_lt (ordRank_lt_ordRank hi (Or.inr ⟨heq, hij⟩))
    · exact (ne_of_lt (ordRank_lt_ordRank hj (Or.inr ⟨heq.symm, hij⟩))).symm
  · exact (ne_of_lt (ordRank_lt_ordRank hj (Or.inl hgt))).symm

theorem ordRank_surj {l : List ℚ} {k : ℕ} (hk : k < l.length) :
    ∃ i, i < l.length ∧ ordRank l i = k + 1 := by
  have hinj : Function.Injective
      (fun i : Fin l.length => (⟨ordRank l i.1 - 1, by
        have h1 := ordRank_le_length (l := l) (i := i.1) i.2
        have h2 := ordRank_pos l i.1
        omega⟩ : Fin l.length)) := by
    intro a b hab
    by_contra hne
    have hr := ordRank_inj a.2 b.2 (fun h => hne (Fin.ext h))
    have h1 := ordRank_pos l a.1
    have h2 := ordRank_pos l b.1
    have hv := congrArg Fin.val hab
    simp only at hv
    omega
  obtain ⟨i, hi⟩ := Finite.injective_iff_surjective.mp hinj ⟨k, hk⟩
  refine ⟨i.1, i.2, ?_⟩
  have hv := congrArg Fin.val hi
  simp only at hv
  have := ordRank_pos l i.1
  omega

/-- The sorted value at the rank position is at most the value itself. -/
theorem sorted_rank_le {l : List ℚ} {i : ℕ} (hi : i < l.length) :
    (l.insertionSort (· ≤ ·)).getD (ordRank l i - 1) 0 ≤ l.getD i 0 := by
  set s := l.insertionSort (· ≤ ·) with hsdef
  have hslen : s.length = l.length :=
    (List.perm_insertionSort (· ≤ ·) l).length_eq
  have hcount : ordRank l i
      ≤ (List.range l.length).countP (fun j => decide (l.getD j 0 ≤ l.getD i 0)) := by
    have h := countP_lt_countP
      (l := List.range l.length)
      (p := fun j => decide (l.getD j 0 < l.getD i 0
        ∨ (l.getD j 0 = l.getD i 0 ∧ j < i)))
      (q := fun j => decide (l.getD j 0 ≤ l.getD i 0))
      (by
        intro a _ hpa
        simp only [decide_eq_true_eq] at hpa ⊢
        rcases hpa with hpa | hpa
        · exact hpa.le
        · exact hpa.1.le)
      i (List.mem_range.mpr hi)
      (by simp)
      (by
        simp only [decide_eq_true_eq]
        rintro (hlt | ⟨-, hlt⟩)
        · exact lt_irrefl _ hlt
        · exact lt_irrefl _ hlt)
    unfold ordRank
    omega
  have hcount2 : ordRank l i ≤ l.countP (fun y => decide (y ≤ l.getD i 0)) := by
    rw [countP_eq_countP_range l (fun y => decide (y ≤ l.getD i 0))]
    exact hcount
  rw [← List.Perm.countP_eq _ (List.perm_insertionSort (· ≤ ·) l), ← hsdef] at hcount2
  by_contra hcon
  push_neg at hcon
  have hrk : ordRank l i - 1 < s.length := by
    have h1 := ordRank_le_length (l := l) (i := i) hi
    have h2 := ordRank_pos l i
    omega
  have := sorted_countP_le_of_lt (List.sorted_insertionSort (· ≤ ·) l)
    (k := ordRank l i - 1) (by rw [← hsdef]; exact hrk) hcon
  rw [← hsdef] at this
  have h2 := ordRank_pos l i
  omega

/-- The value is at most the sorted value at the rank position. -/
theorem le_sorted_rank {l : List ℚ} {i k : ℕ} (hi : i < l.length)
    (hrank : ordRank l i = k + 1) :
    l.getD i 0 ≤ (l.insertionSort (· ≤ ·)).getD k 0 := by
  set s := l.insertionSort (· ≤ ·) with hsdef
  have hslen : s.length = l.length :=
    (List.perm_insertionSort (· ≤ ·) l).length_eq
  have hcount : (List.range l.length).countP
      (fun j => decide (l.getD j 0 < l.getD i 0)) ≤ k := by
    have h := List.countP_mono_left
      (l := List.range l.length)
      (p := fun j => decide (l.getD j 0 < l.getD i 0))
      (q := fun j => decide (l.getD j 0 < l.getD i 0
        ∨ (l.getD j 0 = l.getD i 0 ∧ j < i)))
      (by
        intro a _ hpa
        simp only [decide_eq_true_eq] at hpa ⊢
        exact Or.inl hpa)
    unfold ordRank at hrank
    omega
  have hcount2 : l.countP (fun y => decide (y < l.getD i 0)) ≤ k := by
    rw [countP_eq_countP_range l (fun y => decide (y < l.getD i 0))]
    exact hcount
  rw [← List.Perm.countP_eq _ (List.perm_insertionSort (· ≤ ·) l), ← hsdef] at hcount2
  by_contra hcon
  push_neg at hcon
  have hks : k < s.length := by
    have := ordRank_le_length (l := l) (i := i) hi
    omega
  have := sorted_countP_ge_of_lt (List.sorted_insertionSort (· ≤ ·) l)
    (k := k) (by rw [← hsdef]; exact hks) hcon
  rw [← hsdef] at this
  omega

/-- The simes statistic equals the minimum over sorted positions of
`p₍ₖ₎ / (k+1)`. -/
theorem simes_eq_sorted (l : List ℚ) :
    simesVal l = listMin ((List.range l.length).map
      (fun k => (((l.insertionSort (· ≤ ·)).getD k 0 / (k + 1 : ℚ) : ℚ)
        : WithTop ℚ))) := by
  set s := l.insertionSort (· ≤ ·) with hsdef
  apply le_antisymm
  · apply le_listMin
    intro x hx
    obtain ⟨k, hk, rfl⟩ := List.mem_map.mp hx
    have hkn : k < l.length := List.mem_range.mp hk
    obtain ⟨i, hin, hrank⟩ := ordRank_surj hkn
    have hle : l.getD i 0 ≤ s.getD k 0 := le_sorted_rank hin hrank
    have hmem : ((l.getD i 0 / (ordRank l i : ℚ) : ℚ) : WithTop ℚ)
        ∈ (List.range l.length).map
          (fun i => ((l.getD i 0 / (ordRank l i : ℚ) : ℚ) : WithTop ℚ)) :=
      List.mem_map.mpr ⟨i, List.mem_range.mpr hin, rfl⟩
    refine le_trans (listMin_le_of_mem hmem) ?_
    rw [WithTop.coe_le_coe, hrank]
    push_cast
    exact (div_le_div_right (by positivity)).mpr hle
  · apply le_listMin
    intro x hx
    obtain ⟨i, hi, rfl⟩ := List.mem_map.mp hx
    have hin : i < l.length := List.mem_range.mp hi
    have hle : s.getD (ordRank l i - 1) 0 ≤ l.getD i 0 := sorted_rank_le hin
    have hkn : ordRank l i - 1 < l.length := by
      have h1 := ordRank_le_length (l := l) (i := i) hin
      have h2 := ordRank_pos l i
      omega
    have hmem : ((s.getD (ordRank l i - 1) 0 / ((ordRank l i - 1 : ℕ) + 1 : ℚ) : ℚ)
        : WithTop ℚ)
        ∈ (List.range l.length).map
          (fun k => ((s.getD k 0 / (k + 1 : ℚ) : ℚ) : WithTop ℚ)) :=
      List.mem_map.mpr ⟨ordRank l i - 1, List.mem_range.mpr hkn, rfl⟩
    refine le_trans (listMin_le_of_mem hmem) ?_
    rw [WithTop.coe_le_coe]
    have hrk : ((ordRank l i - 1 : ℕ) + 1 : ℚ) = (ordRank l i : ℚ) := by
      have h2 := ordRank_pos l i
      push_cast [Nat.cast_sub (by omega : 1 ≤ ordRank l i)]
      ring
    rw [hrk]
    have hcpos : (0 : ℚ) < (ordRank l i : ℚ) := by exact_mod_cast ordRank_pos l i
    exact (div_le_div_right hcpos).mpr hle

theorem simesVal_mono {x y : List ℚ} (h : List.Forall₂ (· ≤ ·) x y) :
    simesVal x ≤ simesVal y := by
  rw [simes_eq_sorted, simes_eq_sorted]
  have hlen : x.length = y.length := h.length_eq
  rw [← hlen]
  apply listMin_mono
  rw [List.forall₂_iff_get]
  refine ⟨by simp, ?_⟩
  intro i h1 h2
  have h1x : i < x.length := by simpa using h1
  simp only [List.get_eq_getElem, List.getElem_map, List.getElem_range]
  rw [WithTop.coe_le_coe]
  exact (div_le_div_right (by positivity)).mpr (sorted_pointwise_mono h h1x)

/-! Pointwise monotonicity of each combining statistic. -/

theorem forall2_map {α β : Type} {r : α → α → Prop} {r2 : β → β → Prop}
    {u v : List α} (h : List.Forall₂ r u v) (f g : α → β)
    (hfg : ∀ a b, r a b → r2 (f a) (g b)) :
    List.Forall₂ r2 (u.map f) (v.map g) := by
  induction h with
  | nil => exact List.Forall₂.nil
  | cons hab _ ih => exact List.Forall₂.cons (hfg _ _ hab) ih

theorem forall2_imp {α : Type} {r r2 : α → α → Prop} {u v : List α}
    (h : List.Forall₂ r u v) (himp : ∀ a b, r a b → r2 a b) :
    List.Forall₂ r2 u v := by
  induction h with
  | nil => exact List.Forall₂.nil
  | cons hab _ ih => exact List.Forall₂.cons (himp _ _ hab) ih

theorem sum_map_le_sum_map {f : ℚ → ℚ} {u v : List ℚ}
    (h : List.Forall₂ (· ≤ ·) u v) (hf : ∀ a b, a ≤ b → f a ≤ f b) :
    (u.map f).sum ≤ (v.map f).sum := by
  induction h with
  | nil => exact le_refl _
  | cons hab _ ih => exact add_le_add (hf _ _ hab) ih

theorem sum_le_sum_top {u v : List (WithTop ℚ)}
    (h : List.Forall₂ (· ≤ ·) u v) : u.sum ≤ v.sum := by
  induction h with
  | nil => exact le_refl _
  | cons hab _ ih => exact add_le_add hab ih

theorem dot_map_le {f : ℚ → ℚ} {u v : List ℚ}
    (h : List.Forall₂ (· ≤ ·) u v) (hf : ∀ a b, a ≤ b → f a ≤ f b) :
    ∀ w : List ℚ, (∀ a ∈ w, 0 ≤ a) → dot w (u.map f) ≤ dot w (v.map f) := by
  induction h with
  | nil => intro w _; exact le_refl _
  | @cons a b u v hab _ ih =>
    intro w hw
    cases w with
    | nil => exact le_refl _
    | cons wh wt =>
      simp only [List.map_cons, dot, List.zipWith_cons_cons, List.sum_cons]
      have h1 : wh * f a ≤ wh * f b :=
        mul_le_mul_of_nonneg_left (hf _ _ hab) (hw wh (List.mem_cons_self wh wt))
      have h2 := ih wt (fun x hx => hw x (List.mem_cons_of_mem wh hx))
      exact add_le_add h1 h2

theorem wmul_mono {w : ℚ} (hw : 0 ≤ w) {x y : WithTop ℚ} (hxy : x ≤ y) :
    wmul w x ≤ wmul w y := by
  cases y with
  | top =>
    cases x with
    | top => exact le_refl _
    | coe a =>
      unfold wmul
      by_cases hw0 : w = 0
      · rw [if_pos hw0, hw0]
        simp
      · rw [if_neg hw0]
        exact le_top
  | coe b =>
    cases x with
    | top => exact absurd hxy (by simp)
    | coe a =>
      have hab : a ≤ b := by exact_mod_cast hxy
      unfold wmul
      show ((w * a : ℚ) : WithTop ℚ) ≤ ((w * b : ℚ) : WithTop ℚ)
      exact WithTop.coe_le_coe.mpr (mul_le_mul_of_nonneg_left hab hw)

theorem sum_zipWith_wmul_le {u v : List (WithTop ℚ)}
    (h : List.Forall₂ (· ≤ ·) u v) :
    ∀ w : List ℚ, (∀ a ∈ w, 0 ≤ a) →
      (List.zipWith wmul w u).sum ≤ (List.zipWith wmul w v).sum := by
  induction h with
  | nil => intro w _; exact le_refl _
  | @cons a b u v hab _ ih =>
    intro w hw
    cases w with
    | nil => exact le_refl _
    | cons wh wt =>
      simp only [List.zipWith_cons_cons, List.sum_cons]
      exact add_le_add (wmul_mono (hw wh (List.mem_cons_self wh wt)) hab)
        (ih wt (fun x hx => hw x (List.mem_cons_of_mem wh hx)))

/-- `p/(1-p)` with `+inf` at `p = 1` is monotone on `(0, 1]`. -/
theorem ratio_term_mono {a b : ℚ} (ha : 0 < a) (hab : a ≤ b) (hb : b ≤ 1) :
    ratio a (1 - a) ≤ ratio b (1 - b) := by
  unfold ratio
  by_cases hb1 : (1 : ℚ) - b = 0
  · rw [if_pos hb1]
    exact le_top
  · have hblt : b < 1 := lt_of_le_of_ne hb (fun h => hb1 (by rw [h]; ring))
    have halt : a < 1 := lt_of_le_of_lt hab hblt
    have ha1 : (1 : ℚ) - a ≠ 0 := by intro h; nlinarith
    rw [if_neg hb1, if_neg ha1, WithTop.coe_le_coe]
    rw [div_le_div_iff (by linarith) (by linarith)]
    nlinarith

theorem statColumn_mono (L E : ℚ → ℚ) (hL : Monotone L) (hE : Monotone E)
    (m : MethodName) (v : Variant) (w : List ℚ) (hw : ∀ a ∈ w, 0 ≤ a)
    {pc pc2 : List ℚ}
    (hF : List.Forall₂ (fun a b => 0 < a ∧ a ≤ b ∧ b ≤ 1) pc pc2) :
    statColumn L E m v w pc (pc.map (fun t => 1 - t))
      ≤ statColumn L E m v w pc2 (pc2.map (fun t => 1 - t)) := by
  have hP : List.Forall₂ (· ≤ ·) pc pc2 := forall2_imp hF (fun a b h => h.2.1)
  have hQ : List.Forall₂ (· ≤ ·) (pc2.map (fun t => 1 - t))
      (pc.map (fun t => 1 - t)) :=
    forall2_map hF.flip (fun t => 1 - t) (fun t => 1 - t)
      (fun a b h => by show (1 : ℚ) - a ≤ 1 - b; linarith [h.2.1])
  cases m <;> cases v
  case fisher.normal =>
    exact WithTop.coe_le_coe.mpr (sum_map_le_sum_map hP (fun a b h => hL h))
  case fisher.weighted =>
    exact WithTop.coe_le_coe.mpr (dot_map_le hP (fun a b h => hL h) w hw)
  case pearson.normal =>
    refine WithTop.coe_le_coe.mpr ?_
    have := sum_map_le_sum_map hQ (fun a b h => hL h)
    linarith
  case pearson.weighted =>
    refine WithTop.coe_le_coe.mpr ?_
    have := dot_map_le hQ (fun a b h => hL h) w hw
    linarith
  case mudholkar_george.normal =>
    simp only [statColumn]
    rw [List.zipWith_map_right, List.zipWith_map_right, List.zipWith_same,
      List.zipWith_same]
    have hterms : List.Forall₂ (· ≤ ·)
        (pc.map (fun a => (ratio a (1 - a)).map L))
        (pc2.map (fun a => (ratio a (1 - a)).map L)) := by
      refine forall2_map hF _ _ ?_
      intro a b h
      have hr := ratio_term_mono h.1 h.2.1 h.2.2
      cases hrb : ratio b (1 - b) with
      | top => exact le_top
      | coe rb =>
        rw [hrb] at hr
        cases hra : ratio a (1 - a) with
        | top =>
          rw [hra] at hr
          exact absurd hr (by simp)
        | coe ra =>
          rw [hra] at hr
          have hrr : ra ≤ rb := by exact_mod_cast hr
          simp only [WithTop.map, Option.map]
          exact WithTop.coe_le_coe.mpr (hL hrr)
    exact sum_le_sum_top hterms
  case mudholkar_george.weighted =>
    simp only [statColumn]
    have hterms : List.Forall₂ (· ≤ ·)
        (List.zipWith (fun a b => (ratio a b).map L) pc (pc.map (fun t => 1 - t)))
        (List.zipWith (fun a b => (ratio a b).map L) pc2
          (pc2.map (fun t => 1 - t))) := by
      rw [List.zipWith_map_right, List.zipWith_map_right, List.zipWith_same,
        List.zipWith_same]
      refine forall2_map hF _ _ ?_
      intro a b h
      have hr := ratio_term_mono h.1 h.2.1 h.2.2
      cases hrb : ratio b (1 - b) with
      | top => exact le_top
      | coe rb =>
        rw [hrb] at hr
        cases hra : ratio a (1 - a) with
        | top =>
          rw [hra] at hr
          exact absurd hr (by simp)
        | coe ra =>
          rw [hra] at hr
          have hrr : ra ≤ rb := by exact_mod_cast hr
          simp only [WithTop.map, Option.map]
          exact WithTop.coe_le_coe.mpr (hL hrr)
    exact sum_zipWith_wmul_le hterms w hw
  case stouffer.normal =>
    exact WithTop.coe_le_coe.mpr (sum_map_le_sum_map hP
      (fun a b h => hE (by linarith)))
  case stouffer.weighted =>
    exact WithTop.coe_le_coe.mpr (dot_map_le hP
      (fun a b h => hE (by linarith)) w hw)
  case tippett.normal =>
    exact listMin_mono (forall2_map hP (fun (x : ℚ) => (x : WithTop ℚ))
      (fun (x : ℚ) => (x : WithTop ℚ)) (fun a b h => WithTop.coe_le_coe.mpr h))
  case tippett.weighted => exact le_refl _
  case edgington.normal =>
    refine WithTop.coe_le_coe.mpr ?_
    have hsum := sum_map_le_sum_map (f := id) hP (fun a b h => h)
    simpa using hsum
  case edgington.weighted =>
    refine WithTop.coe_le_coe.mpr ?_
    have hsum := dot_map_le (f := id) hP (fun a b h => h) w hw
    simpa [dot] using hsum
  case edgington_sym.normal =>
    simp only [statColumn]
    rw [List.zipWith_map_right, List.zipWith_map_right, List.zipWith_same,
      List.zipWith_same]
    refine WithTop.coe_le_coe.mpr ?_
    exact sum_map_le_sum_map hP
      (fun a b h => by show a - (1 - a) ≤ b - (1 - b); linarith)
  case edgington_sym.weighted =>
    simp only [statColumn]
    rw [List.zipWith_map_right, List.zipWith_map_right, List.zipWith_same,
      List.zipWith_same]
    refine WithTop.coe_le_coe.mpr ?_
    exact dot_map_le hP
      (fun a b h => by show a + 1 - (1 - a) ≤ b + 1 - (1 - b); linarith) w hw
  case simes.normal => exact simesVal_mono hP
  case simes.weighted => exact le_refl _

/-! Monotonicity of the estimator in the observed statistic. -/

theorem countExtreme_mono {o o2 : WithTop ℚ} (h : o ≤ o2)
    (nulls : List (WithTop ℚ)) (rtol atol : ℚ) :
    countExtreme o nulls rtol atol ≤ countExtreme o2 nulls rtol atol := by
  unfold countExtreme
  apply List.countP_mono_left
  intro ns _ hp
  rw [Bool.or_eq_true, decide_eq_true_eq] at hp ⊢
  rcases hp with hle | hclose
  · exact Or.inl (hle.trans h)
  · by_cases hno : ns ≤ o2
    · exact Or.inl hno
    · right
      cases o with
      | top =>
        have ho2 : o2 = ⊤ := top_le_iff.mp h
        exact absurd (ho2 ▸ le_top) hno
      | coe a =>
        cases ns with
        | top => exact absurd hclose (by simp [isclose])
        | coe b =>
          cases o2 with
          | top => exact absurd le_top hno
          | coe a2 =>
            have haa2 : a ≤ a2 := by exact_mod_cast h
            have ha2b : a2 < b := by
              by_contra hc
              exact hno (by exact_mod_cast not_lt.mp hc)
            have hclose2 : |a - b| ≤ atol + rtol * |b| := by
              simpa [isclose] using hclose
            simp only [isclose, decide_eq_true_eq]
            have habs : |a2 - b| ≤ |a - b| := by
              rw [abs_of_nonpos (by linarith), abs_sub_comm a b,
                abs_of_nonneg (by linarith)]
              linarith
            exact le_trans habs hclose2

theorem counted_p_spec_pvalue_mono {o o2 : WithTop ℚ} (h : o ≤ o2)
    (nulls : List (WithTop ℚ)) (rtol atol : ℚ) :
    (counted_p_spec o nulls rtol atol).pvalue
      ≤ (counted_p_spec o2 nulls rtol atol).pvalue := by
  rw [counted_p_spec_pvalue, counted_p_spec_pvalue]
  have hc := countExtreme_mono h nulls rtol atol
  have hpos : (0 : ℚ) < (nulls.length : ℚ) + 1 := by positivity
  refine (div_le_div_right hpos).mpr ?_
  have : (countExtreme o nulls rtol atol : ℚ)
      ≤ (countExtreme o2 nulls rtol atol : ℚ) := by exact_mod_cast hc
  linarith

/-- Pointwise bound relation between the observed p-columns before and
after one observed p-value is replaced by a larger valid one. -/
theorem forall2_bounds_set {ctrs : List CTR} {i : ℕ} (hi : i < ctrs.length)
    (hvalid : ∀ c ∈ ctrs, 0 < c.p ∧ c.p ≤ 1) {p2 : ℚ}
    (hp2 : (ctrs.get ⟨i, hi⟩).p ≤ p2) (hp21 : p2 ≤ 1) (c2 : CTR)
    (hc2p : c2.p = p2) :
    List.Forall₂ (fun a b => 0 < a ∧ a ≤ b ∧ b ≤ 1)
      (ctrs.map (fun c => c.p)) ((ctrs.set i c2).map (fun c => c.p)) := by
  rw [List.forall₂_iff_get]
  refine ⟨by simp, ?_⟩
  intro j hj1 hj2
  simp only [List.length_map, List.length_set] at hj1 hj2
  simp only [List.get_eq_getElem, List.getElem_map]
  by_cases hji : j = i
  · subst hji
    rw [List.getElem_set_self (by simpa using hj1)]
    have hb := hvalid ctrs[j] (List.getElem_mem hj1)
    exact ⟨hb.1, by rw [hc2p]; exact hp2, by rw [hc2p]; exact hp21⟩
  · rw [List.getElem_set_ne (fun h => hji h.symm)]
    have hb := hvalid ctrs[j] (List.getElem_mem hj1)
    exact ⟨hb.1, le_refl _, hb.2⟩

/-! ## Float semantics of the weighted statistics (NaN and signed infinity)

`WithTop ℚ` has `+inf` but no NaN, so the `wmul`/`statColumn` model above
cannot express the float product `0 * inf = NaN`.  The `FVal` type models
IEEE float values exactly where the weighted statistics need it: NaN
propagates through addition and scaling, every comparison with NaN is
false (so `counted_p` counts nothing), and `numpy.isclose` falls back to
float equality — under which NaN equals nothing — on non-finite values.
`stoufferWeightedF` is the float-semantics weighted Stouffer statistic
`lambda p, w: w.dot(erfinv(2*p-1))` (ctr.py:280) and
`combineStoufferWeightedF` its composition with the tolerant estimator of
spec §4.5, i.e. `combine` restricted to `method="stouffer"`, weighted,
`alternative="less"`: enough of the program to refute unrestricted
monotonicity at a zero weight. -/
/-- An IEEE float value as the statistics see it: NaN, a signed infinity,
or a finite value (kept exact in `ℚ`). -/
inductive FVal
  | nan
  | neginf
  | posinf
  | fin (val : ℚ)
deriving DecidableEq, Repr

/-- Float addition: NaN propagates, `inf + (-inf) = NaN`, an infinity
absorbs finite terms. -/
def FVal.add : FVal → FVal → FVal
  | .nan, _ => .nan
  | .neginf, .nan => .nan
  | .neginf, .neginf => .neginf
  | .neginf, .posinf => .nan
  | .neginf, .fin _ => .neginf
  | .posinf, .nan => .nan
  | .posinf, .neginf => .nan
  | .posinf, .posinf => .posinf
  | .posinf, .fin _ => .posinf
  | .fin _, .nan => .nan
  | .fin _, .neginf => .neginf
  | .fin _, .posinf => .posinf
  | .fin a, .fin b => .fin (a + b)

/-- Float multiplication of a finite weight with a value: NaN propagates,
`w * (±inf)` keeps or flips the sign for `w ≠ 0`, and `0 * (±inf) = NaN`
(the corner `WithTop ℚ` cannot express). -/
def FVal.scale (w : ℚ) : FVal → FVal
  | .nan => .nan
  | .neginf => if w = 0 then .nan else if 0 < w then .neginf else .posinf
  | .posinf => if w = 0 then .nan else if 0 < w then .posinf else .neginf
  | .fin a => .fin (w * a)

/-- `np.dot`-style sum of a list of float values. -/
def FVal.sumF (l : List FVal) : FVal :=
  l.foldr FVal.add (.fin 0)

/-- Float `<=`: every comparison with NaN is false. -/
def FVal.leb : FVal → FVal → Bool
  | .nan, _ => false
  | .neginf, .nan => false
  | .neginf, .neginf => true
  | .neginf, .posinf => true
  | .neginf, .fin _ => true
  | .posinf, .nan => false
  | .posinf, .neginf => false
  | .posinf, .posinf => true
  | .posinf, .fin _ => false
  | .fin _, .nan => false
  | .fin _, .neginf => false
  | .fin _, .posinf => true
  | .fin a, .fin b => decide (a ≤ b)

/-- `numpy.isclose` on float values: the `|a-b| <= atol + rtol*|b|` test
for finite values; for non-finite values the fallback is float equality,
under which NaN equals nothing (including itself) and equal infinities
match. -/
def iscloseF (rtol atol : ℚ) : FVal → FVal → Bool
  | .fin a, .fin b => decide (|a - b| ≤ atol + rtol * |b|)
  | .nan, .nan => false
  | .nan, .neginf => false
  | .nan, .posinf => false
  | .nan, .fin _ => false
  | .neginf, .nan => false
  | .neginf, .neginf => true
  | .neginf, .posinf => false
  | .neginf, .fin _ => false
  | .posinf, .nan => false
  | .posinf, .neginf => false
  | .posinf, .posinf => true
  | .posinf, .fin _ => false
  | .fin _, .nan => false
  | .fin _, .neginf => false
  | .fin _, .posinf => false

/-- The tolerant "at least as extreme" count of spec §4.5 on float values:
`null_sample <= observed` or within tolerance.  A NaN observed statistic
satisfies neither disjunct, so the count is 0. -/
def countExtremeF (orig : FVal) (nulls : List FVal) (rtol atol : ℚ) : ℕ :=
  nulls.countP (fun ns => FVal.leb ns orig || iscloseF rtol atol orig ns)

/-- The float-semantics estimator pvalue `(count + 1) / (n_samples + 1)`. -/
def counted_pF (orig : FVal) (nulls : List FVal) (rtol atol : ℚ) : ℚ :=
  ((countExtremeF orig nulls rtol atol : ℚ) + 1) / ((nulls.length : ℚ) + 1)

/-- A float model of `scipy.special.erfinv` on `[-1, 1]`: finite and
monotone strictly inside, with the documented infinite boundary values
`erfinv(-1) = -inf` and `erfinv(1) = +inf` (a concrete monotone
representative; only `erfinvF 0 = 0` and `erfinvF 1 = +inf` are used). -/
def erfinvF (x : ℚ) : FVal :=
  if x ≤ -1 then .neginf else if 1 ≤ x then .posinf else .fin x

/-- The weighted Stouffer statistic `lambda p, w: w.dot(erfinv(2*p-1))`
(ctr.py:280) of one column, in float semantics. -/
def stoufferWeightedF (w : List ℚ) (pcol : List ℚ) : FVal :=
  FVal.sumF (List.zipWith FVal.scale w (pcol.map (fun x => erfinvF (2 * x - 1))))

/-- `combine` restricted to `method="stouffer"`, weighted,
`alternative="less"`, in float semantics: the observed statistic and the
sampled null statistics through the tolerant estimator. -/
def combineStoufferWeightedF (w : List ℚ) (obsP : List ℚ)
    (nullPcols : List (List ℚ)) (rtol atol : ℚ) : ℚ :=
  counted_pF (stoufferWeightedF w obsP) (nullPcols.map (stoufferWeightedF w))
    rtol atol

/-- **C8** (amended): with the default `alternative="less"`, a fixed method,
fixed STRICTLY POSITIVE weights, a fixed collection of test results with
valid `p`/`q` values
(`p ∈ (0,1]`, `q = 1 - p` the distribution-aware complement) and a fixed
sampling configuration and random state (i.e. the same sampled null columns
for both calls — the null distribution of the modified result is unchanged),
replacing one observed p-value by a larger valid one never decreases the
combined p-value.  Strict positivity of the weights is necessary, not a
convenience: at a ZERO weight with the raised p-value exactly 1, the float
program multiplies the weight with an infinite statistic term
(`erfinv(1) = +inf`, `log(0) = -inf`), obtains NaN, every comparison of the
NaN statistic with the finite null samples is false, and the estimator
collapses to `1/(n_samples+1)` — the combined p-value can strictly
DECREASE, as `combineStoufferWeightedF` shows on the C8 counterexample.
With strictly positive weights no NaN arises for valid inputs (every
infinite term keeps a definite sign), and the `WithTop ℚ` model is
order-faithful. -/
theorem C8_combine_monotone
    (L E : ℚ → ℚ) (hL : Monotone L) (hE : Monotone E)
    (method : MethodName) (weights : Option (List ℚ))
    (hw : ∀ wl ∈ weights, ∀ a ∈ wl, 0 < a)
    (ctrs : List CTR) (i : ℕ) (hi : i < ctrs.length)
    (hvalid : ∀ c ∈ ctrs, 0 < c.p ∧ c.p ≤ 1 ∧ c.q = 1 - c.p)
    (p2 : ℚ) (hp2 : (ctrs.get ⟨i, hi⟩).p ≤ p2) (hp21 : p2 ≤ 1)
    (nullP nullQ : List (List ℚ)) (rtol atol : ℚ)
    (r r2 : Combined_P_Value)
    (h1 : combine L E ctrs weights method .less nullP nullQ rtol atol = .ok r)
    (h2 : combine L E
        (ctrs.set i ⟨p2, 1 - p2, (ctrs.get ⟨i, hi⟩).nulldist⟩)
        weights method .less nullP nullQ rtol atol = .ok r2) :
    r.pvalue ≤ r2.pvalue := by
  unfold combine at h1 h2
  by_cases hone : ctrs.length = 1
  · rw [if_pos hone] at h1
    rw [if_pos ((List.length_set ctrs i _).trans hone)] at h2
    injection h1 with h1
    injection h2 with h2
    rw [← h1, ← h2]
    show ctrs.headI.p
      ≤ ((ctrs.set i ⟨p2, 1 - p2, (ctrs.get ⟨i, hi⟩).nulldist⟩).headI).p
    obtain ⟨c, t, rfl⟩ := List.exists_cons_of_ne_nil
      (List.ne_nil_of_length_pos (show 0 < ctrs.length by omega))
    have hi0 : i = 0 := by
      have h3 : i < (c :: t).length := hi
      simp only [List.length_cons] at h3 hone
      omega
    subst hi0
    exact hp2
  · rw [if_neg hone] at h1
    rw [if_neg (fun h => hone ((List.length_set ctrs i _) ▸ h))] at h2
    cases hv : resolveVariant method weights with
    | error e =>
      rw [hv] at h1
      exact absurd h1 (by simp)
    | ok v =>
      rw [hv] at h1 h2
      injection h1 with h1
      injection h2 with h2
      rw [← h1, ← h2]
      have hwnn : ∀ a ∈ weights.getD [], 0 ≤ a := by
        cases weights with
        | none => intro a ha; cases ha
        | some wl =>
          intro a ha
          exact (hw wl rfl a ha).le
      have hvalid2 : ∀ c ∈ ctrs.set i ⟨p2, 1 - p2, (ctrs.get ⟨i, hi⟩).nulldist⟩,
          0 < c.p ∧ c.p ≤ 1 ∧ c.q = 1 - c.p := by
        intro c hc
        rcases List.mem_or_eq_of_mem_set hc with hc | rfl
        · exact hvalid c hc
        · have hget := hvalid (ctrs.get ⟨i, hi⟩) (ctrs.get_mem i hi)
          exact ⟨lt_of_lt_of_le hget.1 hp2, hp21, rfl⟩
      have horig : (apply_statistics
            (statMatrix L E method v (weights.getD []))
            (dataOrig ctrs) .less).headI
          ≤ (apply_statistics (statMatrix L E method v (weights.getD []))
            (dataOrig (ctrs.set i ⟨p2, 1 - p2, (ctrs.get ⟨i, hi⟩).nulldist⟩))
            .less).headI := by
        show statColumn L E method v (weights.getD []) (ctrs.map (fun c => c.p))
            (ctrs.map (fun c => c.q))
          ≤ statColumn L E method v (weights.getD [])
            ((ctrs.set i ⟨p2, 1 - p2, (ctrs.get ⟨i, hi⟩).nulldist⟩).map
              (fun c => c.p))
            ((ctrs.set i ⟨p2, 1 - p2, (ctrs.get ⟨i, hi⟩).nulldist⟩).map
              (fun c => c.q))
        have hQ1 : ctrs.map (fun c => c.q)
            = (ctrs.map (fun c => c.p)).map (fun t => 1 - t) := by
          rw [List.map_map]
          exact List.map_congr_left (fun c hc => (hvalid c hc).2.2)
        have hQ2 : (ctrs.set i ⟨p2, 1 - p2,
              (ctrs.get ⟨i, hi⟩).nulldist⟩).map (fun c => c.q)
            = ((ctrs.set i ⟨p2, 1 - p2, (ctrs.get ⟨i, hi⟩).nulldist⟩).map
              (fun c => c.p)).map (fun t => 1 - t) := by
          rw [List.map_map]
          exact List.map_congr_left (fun c hc => (hvalid2 c hc).2.2)
        rw [hQ1, hQ2]
        exact statColumn_mono L E hL hE method v (weights.getD []) hwnn
          (forall2_bounds_set hi (fun c hc => ⟨(hvalid c hc).1, (hvalid c hc).2.1⟩)
            hp2 hp21 _ rfl)
      exact counted_p_spec_pvalue_mono horig _ rtol atol

/-- Witness for `C8_combine_monotone`: one valid test result with observed
p-value 1/2 raised to 3/4. -/
theorem C8_combine_monotone_witness :
    Monotone (id : ℚ → ℚ) ∧
      (∀ c ∈ [CTR.mk (1/2) (1/2) ⟨[1/2, 1]⟩], 0 < c.p ∧ c.p ≤ 1 ∧ c.q = 1 - c.p) ∧
      ([CTR.mk (1/2) (1/2) ⟨[1/2, 1]⟩].get ⟨0, by decide⟩).p ≤ 3/4 ∧
      (3/4 : ℚ) ≤ 1 ∧
      combine id id [CTR.mk (1/2) (1/2) ⟨[1/2, 1]⟩] none .fisher .less [] [] 0 0
        = .ok ⟨1/2, 0⟩ ∧
      combine id id
          ([CTR.mk (1/2) (1/2) ⟨[1/2, 1]⟩].set 0
            ⟨3/4, 1 - 3/4,
              ([CTR.mk (1/2) (1/2) ⟨[1/2, 1]⟩].get ⟨0, by decide⟩).nulldist⟩)
          none .fisher .less [] [] 0 0 = .ok ⟨3/4, 0⟩ ∧
      (Combined_P_Value.mk (1/2) 0).pvalue ≤ (Combined_P_Value.mk (3/4) 0).pvalue :=
  have hvalid : ∀ c ∈ [CTR.mk (1/2) (1/2) ⟨[1/2, 1]⟩],
      0 < c.p ∧ c.p ≤ 1 ∧ c.q = 1 - c.p := by
    intro c hc
    rw [List.mem_singleton] at hc
    subst hc
    exact ⟨by norm_num, by norm_num, by norm_num⟩
  ⟨monotone_id, hvalid, by norm_num, by norm_num, rfl, rfl,
    C8_combine_monotone id id monotone_id monotone_id .fisher none
      (fun wl h => Option.noConfusion h)
      [CTR.mk (1/2) (1/2) ⟨[1/2, 1]⟩] 0 (by decide) hvalid (3/4)
      (by norm_num) (by norm_num) [] [] 0 0 ⟨1/2, 0⟩ ⟨3/4, 0⟩ rfl rfl⟩

/-- **C8** counterexample: the unamended claim — monotonicity for EVERY
named statistic with any valid weights — is false on the program.  Two
tests, weighted Stouffer with weights `[0, 1]` (nonnegative, as the claim
and the repo's own `test_monotony` weights `rng.random(k)` allow), one
sampled null column `[1/2, 1/2]`, exact comparison (`rtol = atol = 0`).
With both observed p-values `1/2` the statistic is finite
(`erfinv(0) = 0`) and the combined p-value is `(1+1)/(1+1) = 1`; raising
the first (zero-weight) p-value to the larger valid value 1 makes its term
`erfinv(2*1 - 1) = +inf`, the float product `0 * inf` is NaN, the dot
product is NaN, neither `<=` nor `isclose` holds of NaN, so the count is 0
and the combined p-value DROPS to `(0+1)/(1+1) = 1/2`. -/
theorem C8_counterexample :
    (∀ x ∈ [(0 : ℚ), 1], 0 ≤ x) ∧
      (0 < (1/2 : ℚ) ∧ (1/2 : ℚ) ≤ 1 ∧ (1 : ℚ) ≤ 1) ∧
      erfinvF 0 = FVal.fin 0 ∧ erfinvF 1 = FVal.posinf ∧
      stoufferWeightedF [0, 1] [1, 1/2] = FVal.nan ∧
      combineStoufferWeightedF [0, 1] [1/2, 1/2] [[1/2, 1/2]] 0 0 = 1 ∧
      combineStoufferWeightedF [0, 1] [1, 1/2] [[1/2, 1/2]] 0 0 = 1/2 ∧
      ¬ combineStoufferWeightedF [0, 1] [1/2, 1/2] [[1/2, 1/2]] 0 0
          ≤ combineStoufferWeightedF [0, 1] [1, 1/2] [[1/2, 1/2]] 0 0 := by
  have hfin : stoufferWeightedF [0, 1] [1/2, 1/2] = FVal.fin 0 := by
    norm_num [stoufferWeightedF, erfinvF, FVal.sumF, FVal.scale, FVal.add]
  have hnan : stoufferWeightedF [0, 1] [1, 1/2] = FVal.nan := by
    norm_num [stoufferWeightedF, erfinvF, FVal.sumF, FVal.scale, FVal.add]
  refine ⟨?_, ⟨by norm_num, by norm_num, le_refl 1⟩, ?_, ?_, hnan, ?_, ?_, ?_⟩
  · intro x hx
    rcases List.mem_cons.mp hx with rfl | hx
    · exact le_refl 0
    · rw [List.mem_singleton] at hx
      subst hx
      norm_num
  · norm_num [erfinvF]
  · norm_num [erfinvF]
  · rw [combineStoufferWeightedF]
    norm_num [counted_pF, countExtremeF, hfin, FVal.leb]
  · rw [combineStoufferWeightedF]
    norm_num [counted_pF, countExtremeF, hfin, hnan, FVal.leb, iscloseF]
  · rw [combineStoufferWeightedF, combineStoufferWeightedF]
    norm_num [counted_pF, countExtremeF, hfin, hnan, FVal.leb, iscloseF]

/-! ## `pdist.py`: proportional sampling (pdist.py:66-81)

The shuffled visitation order of `(p, prob)` pairs produced by
`RNG.shuffle(combos)` enters as an explicit permutation argument; a slot of
the `np.empty(size)` output holds `none` until written.  (With nonnegative
masses every slice boundary `round(start)`, `round(end)` is nonnegative,
so Python's slice semantics coincides with the interval-write model used
here.) -/

/-- Python's built-in `round`: nearest integer, ties to even. -/
def pythonRound (x : ℚ) : ℤ :=
  if x - ⌊x⌋ < 1/2 then ⌊x⌋
  else if 1/2 < x - ⌊x⌋ then ⌊x⌋ + 1
  else if ⌊x⌋ % 2 = 0 then ⌊x⌋ else ⌊x⌋ + 1

/-- The slot-filling loop of `PDist.sample(method="proportional")`
(pdist.py:72-78): for each `(p, prob)` in visitation order, `end = start +
prob*size`, write `p` into slots `round(start) … round(end) - 1`, continue
from `end`. -/
def fillRuns (size : ℕ) : List (ℚ × ℚ) → ℚ → (ℕ → Option ℚ) → (ℕ → Option ℚ)
  | [], _, res => res
  | (p, prob) :: rest, start, res =>
      fillRuns size rest (start + prob * size)
        (fun j =>
          if pythonRound start ≤ (j : ℤ) ∧ (j : ℤ) < pythonRound (start + prob * size)
          then some p else res j)

/-- The final value of the running boundary `end` (checked by the assertion
at pdist.py:79). -/
def finalStart (size : ℕ) : List (ℚ × ℚ) → ℚ → ℚ
  | [], start => start
  | (_, prob) :: rest, start => finalStart size rest (start + prob * size)

/-- Proportional sampling of a discrete distribution, before the final
global shuffle. -/
def sampleProportional (order : List (ℚ × ℚ)) (size : ℕ) : ℕ → Option ℚ :=
  fillRuns size order 0 (fun _ => none)

theorem finalStart_eq (size : ℕ) :
    ∀ (order : List (ℚ × ℚ)) (start : ℚ),
      finalStart size order start = start + (order.map Prod.snd).sum * size := by
  intro order
  induction order with
  | nil => intro start; simp [finalStart]
  | cons hd rest ih =>
    intro start
    obtain ⟨p, prob⟩ := hd
    simp only [finalStart, List.map_cons, List.sum_cons, ih]
    ring

theorem pythonRound_natCast (n : ℕ) : pythonRound (n : ℚ) = n := by
  unfold pythonRound
  rw [Int.floor_natCast]
  rw [if_pos]
  norm_num

theorem fillRuns_eq_or (size : ℕ) :
    ∀ (order : List (ℚ × ℚ)) (start : ℚ) (res : ℕ → Option ℚ) (j : ℕ),
      (∃ p ∈ order.map Prod.fst, fillRuns size order start res j = some p) ∨
        fillRuns size order start res j = res j := by
  intro order
  induction order with
  | nil => intro start res j; exact Or.inr rfl
  | cons hd rest ih =>
    intro start res j
    obtain ⟨p, prob⟩ := hd
    simp only [fillRuns]
    rcases ih (start + prob * size)
        (fun j =>
          if pythonRound start ≤ (j : ℤ)
              ∧ (j : ℤ) < pythonRound (start + prob * size)
          then some p else res j) j with ⟨p2, hp2, heq⟩ | heq
    · exact Or.inl ⟨p2, List.mem_cons_of_mem _ hp2, heq⟩
    · rw [heq]
      by_cases hcond : pythonRound start ≤ (j : ℤ)
          ∧ (j : ℤ) < pythonRound (start + prob * size)
      · exact Or.inl ⟨p, List.mem_cons_self _ _, if_pos hcond⟩
      · exact Or.inr (if_neg hcond)

theorem fillRuns_covers (size : ℕ) :
    ∀ (order : List (ℚ × ℚ)) (start : ℚ) (res : ℕ → Option ℚ) (j : ℕ),
      pythonRound start ≤ (j : ℤ) →
      (j : ℤ) < pythonRound (start + (order.map Prod.snd).sum * size) →
      ∃ p ∈ order.map Prod.fst, fillRuns size order start res j = some p := by
  intro order
  induction order with
  | nil =>
    intro start res j h1 h2
    exfalso
    rw [show start + (List.map Prod.snd []).sum * size = start by simp] at h2
    omega
  | cons hd rest ih =>
    intro start res j h1 h2
    obtain ⟨p, prob⟩ := hd
    simp only [fillRuns]
    by_cases hj : (j : ℤ) < pythonRound (start + prob * size)
    · rcases fillRuns_eq_or size rest (start + prob * size)
          (fun j =>
            if pythonRound start ≤ (j : ℤ)
                ∧ (j : ℤ) < pythonRound (start + prob * size)
            then some p else res j) j with ⟨p2, hp2, heq⟩ | heq
      · exact ⟨p2, List.mem_cons_of_mem _ hp2, heq⟩
      · refine ⟨p, List.mem_cons_self _ _, ?_⟩
        rw [heq, if_pos ⟨h1, hj⟩]
    · have h2b : (j : ℤ) < pythonRound
          ((start + prob * size) + (rest.map Prod.snd).sum * size) := by
        rw [show (start + prob * size) + (rest.map Prod.snd).sum * size
            = start + ((List.map Prod.snd ((p, prob) :: rest)).sum) * size by
          simp only [List.map_cons, List.sum_cons]
          ring]
        exact h2
      obtain ⟨p2, hp2, heq⟩ := ih (start + prob * size)
        (fun j =>
          if pythonRound start ≤ (j : ℤ)
              ∧ (j : ℤ) < pythonRound (start + prob * size)
          then some p else res j) j (not_lt.mp hj) h2b
      exact ⟨p2, List.mem_cons_of_mem _ hp2, heq⟩

/-- **C9**: for a discrete `PDist` whose masses sum to 1 (and are
nonnegative, so that Python's slice indexing coincides with the interval
model) and any positive `size`, proportional sampling walks the shuffled
visitation order writing runs with boundaries `round(cumulative * size)`;
the final boundary rounds to exactly `size` (so the assertion at pdist.py:79
never fails), every output slot is filled with a support value, and this
remains true after the final global shuffle (any permutation of the slots). -/
theorem C9_proportional_sampling (d : PDist) (order : List (ℚ × ℚ)) (size : ℕ)
    (hperm : order.Perm (d.ps.zip d.probs))
    (hsum : d.probs.sum = 1) (hnn : ∀ x ∈ d.probs, 0 ≤ x) (hsize : 0 < size) :
    pythonRound (finalStart size order 0) = size ∧
      (∀ j < size, ∃ p ∈ d.ps, sampleProportional order size j = some p) ∧
      (∀ σ : ℕ → ℕ, (∀ j < size, σ j < size) →
        ∀ j < size, ∃ p ∈ d.ps, sampleProportional order size (σ j) = some p) := by
  have hlen : d.probs.length = d.ps.length := diffs_length 0 d.ps
  have hzipsnd : (d.ps.zip d.probs).map Prod.snd = d.probs :=
    List.map_snd_zip d.ps d.probs (le_of_eq hlen)
  have hordsum : (order.map Prod.snd).sum = 1 := by
    have hp := (hperm.map Prod.snd).sum_eq
    rw [hzipsnd, hsum] at hp
    exact hp
  have hfinal : finalStart size order 0 = (size : ℚ) := by
    rw [finalStart_eq, hordsum]
    simp
  have hassert : pythonRound (finalStart size order 0) = size := by
    rw [hfinal, pythonRound_natCast]
  have hfill : ∀ j < size, ∃ p ∈ d.ps, sampleProportional order size j = some p := by
    intro j hj
    have hcov := fillRuns_covers size order 0 (fun _ => none) j
      (by
        rw [show (0 : ℚ) = ((0 : ℕ) : ℚ) by norm_num, pythonRound_natCast]
        exact Int.ofNat_nonneg j)
      (by
        rw [show (0 : ℚ) + (order.map Prod.snd).sum * size = ((size : ℕ) : ℚ) by
          rw [hordsum]; simp]
        rw [pythonRound_natCast]
        exact_mod_cast hj)
    obtain ⟨p, hp, heq⟩ := hcov
    refine ⟨p, ?_, heq⟩
    have hmem : p ∈ (d.ps.zip d.probs).map Prod.fst :=
      (hperm.map Prod.fst).mem_iff.mp hp
    rw [List.map_fst_zip d.ps d.probs (ge_of_eq hlen)] at hmem
    exact hmem
  exact ⟨hassert, hfill, fun σ hσ j hj => hfill (σ j) (hσ j hj)⟩

/-- Witness for `C9_proportional_sampling` at the support `[1/2, 1]` with
visitation order `[(1, 1/2), (1/2, 1/2)]` and `size = 4`. -/
theorem C9_proportional_sampling_witness :
    ([((1 : ℚ), (1/2 : ℚ)), (1/2, 1/2)].Perm
        ((⟨[1/2, 1]⟩ : PDist).ps.zip (⟨[1/2, 1]⟩ : PDist).probs) ∧
      (⟨[1/2, 1]⟩ : PDist).probs.sum = 1 ∧
      (∀ x ∈ (⟨[1/2, 1]⟩ : PDist).probs, 0 ≤ x) ∧ 0 < 4) ∧
      (pythonRound (finalStart 4 [((1 : ℚ), (1/2 : ℚ)), (1/2, 1/2)] 0) = 4 ∧
        (∀ j < 4, ∃ p ∈ (⟨[1/2, 1]⟩ : PDist).ps,
          sampleProportional [((1 : ℚ), (1/2 : ℚ)), (1/2, 1/2)] 4 j = some p) ∧
        (∀ σ : ℕ → ℕ, (∀ j < 4, σ j < 4) →
          ∀ j < 4, ∃ p ∈ (⟨[1/2, 1]⟩ : PDist).ps,
            sampleProportional [((1 : ℚ), (1/2 : ℚ)), (1/2, 1/2)] 4 (σ j) = some p)) :=
  have hzip : (⟨[1/2, 1]⟩ : PDist).ps.zip (⟨[1/2, 1]⟩ : PDist).probs
      = [((1/2 : ℚ), (1/2 : ℚ)), (1, 1/2)] := by
    show ([1/2, 1] : List ℚ).zip (diffs 0 [1/2, 1]) = [(1/2, 1/2), (1, 1/2)]
    norm_num [diffs, List.zip_cons_cons, Prod.ext_iff]
  have hperm : [((1 : ℚ), (1/2 : ℚ)), (1/2, 1/2)].Perm
      ((⟨[1/2, 1]⟩ : PDist).ps.zip (⟨[1/2, 1]⟩ : PDist).probs) := by
    rw [hzip]
    exact List.Perm.swap _ _ _
  have hsum : (⟨[1/2, 1]⟩ : PDist).probs.sum = 1 := by
    show (diffs 0 [1/2, 1]).sum = 1
    norm_num [diffs]
  have hnn : ∀ x ∈ (⟨[1/2, 1]⟩ : PDist).probs, 0 ≤ x := by
    intro x hx
    have hx2 : x ∈ diffs 0 [1/2, 1] := hx
    simp only [diffs, List.mem_cons, List.not_mem_nil, or_false] at hx2
    rcases hx2 with rfl | rfl <;> norm_num
  ⟨⟨hperm, hsum, hnn, by norm_num⟩,
    C9_proportional_sampling ⟨[1/2, 1]⟩ [((1 : ℚ), (1/2 : ℚ)), (1/2, 1/2)] 4
      hperm hsum hnn (by norm_num)⟩

end CombinePValuesDiscrete
